import Mathlib

/-!
# Dolar al Piso: verification of the rate cache, the amount formatter and the converter

Shallow embedding of `src/main.go`.

* Go strings are modelled as lists of characters (`GoStr`); every string the
  program builds itself is ASCII, so bytes and characters coincide there.
* `float64` is modelled by `F64`: NaN, the two infinities and the finite values
  `± m * 2^e`.  Arithmetic is IEEE 754 binary64 with round-to-nearest-even,
  computed exactly on naturals.
* The standard-library calls the program makes (`fmt.Sprintf("%.2f", _)`,
  `strconv.ParseFloat(_, 64)`, `strings.Split`, `strings.TrimSpace`,
  `strings.ReplaceAll`, `time.Since`) are modelled after their documented behaviour.
* The clock and the answer of the BCV web site are inputs of `GetDollarRate`.
-/

set_option maxRecDepth 100000
set_option exponentiation.threshold 5000

namespace DolarAlPiso

/-- A Go string, as the list of its characters. -/
abbrev GoStr := List Char

deriving instance DecidableEq for Except

/-! ## float64 -/

/-- A `float64` value: NaN, `±Inf`, or the finite value `(-1)^neg * m * 2^e`. -/
inductive F64 where
  | nan : F64
  | inf (neg : Bool) : F64
  | fin (neg : Bool) (m : Nat) (e : Int) : F64
  deriving DecidableEq, Repr

namespace F64

/-- The representations that are binary64 values: 53-bit significand, exponent of
the last place between `-1074` and `971`, normalised unless subnormal. -/
def IsBinary64 : F64 → Prop
  | nan => True
  | inf _ => True
  | fin _ m e => m < 2 ^ 53 ∧ -1074 ≤ e ∧ e ≤ 971 ∧ (2 ^ 52 ≤ m ∨ e = -1074)

instance : DecidablePred IsBinary64 := fun v => by
  cases v <;> unfold IsBinary64 <;> infer_instance

/-- The value `+0`, the zero value of a Go `float64`. -/
def zero : F64 := fin false 0 (-1074)

/-- Go's `v == 0`: true for `+0` and `-0`, false for NaN. -/
def isZero : F64 → Bool
  | fin _ m _ => m == 0
  | _ => false

/-- Neither NaN nor an infinity. -/
def isFinite : F64 → Bool
  | fin _ _ _ => true
  | _ => false

/-- The sign bit of a value (false for NaN). -/
def signBit : F64 → Bool
  | nan => false
  | inf s => s
  | fin s _ _ => s

/-- Go's `v > 0`. -/
def isPos : F64 → Bool
  | nan => false
  | inf s => !s
  | fin s m _ => !s && decide (0 < m)

/-- Go's `v < 0`. -/
def isNeg : F64 → Bool
  | nan => false
  | inf s => s
  | fin s m _ => s && decide (0 < m)

/-- The absolute value (sign bit cleared). -/
def abs : F64 → F64
  | nan => nan
  | inf _ => inf false
  | fin _ m e => fin false m e

/-- Number of binary digits of `n` added to `acc`, with `fuel` bounding the recursion. -/
def bitLenAux : Nat → Nat → Nat → Nat
  | 0, _, acc => acc
  | fuel + 1, n, acc => if n = 0 then acc else bitLenAux fuel (n / 2) (acc + 1)

/-- Number of binary digits of `n` (0 for 0). -/
def bitLen (n : Nat) : Nat := bitLenAux n n 0

/-- Numerator of `p / (q * 2^e)`. -/
def scaleNum (p : Nat) (e : Int) : Nat := if e < 0 then p * 2 ^ (-e).toNat else p

/-- Denominator of `p / (q * 2^e)`. -/
def scaleDen (q : Nat) (e : Int) : Nat := if e < 0 then q else q * 2 ^ e.toNat

/-- The integer nearest to `n / d`, ties to the even one. -/
def rne (n d : Nat) : Nat :=
  let q := n / d
  let r := n % d
  if 2 * r < d then q
  else if 2 * r = d then (if q % 2 = 0 then q else q + 1)
  else q + 1

/-- Exponent of the last place for the positive rational `p / q`: the `e ≥ -1074`
with `2^52 ≤ p / (q * 2^e) < 2^53` when there is one, else `-1074`. -/
def ulpExp (p q : Nat) : Int :=
  let e0 : Int := (bitLen p : Int) - (bitLen q : Int) - 53
  let e1 : Int := if scaleNum p e0 / scaleDen q e0 < 2 ^ 53 then e0 else e0 + 1
  max e1 (-1074)

/-- Round the non-negative rational `p / q` (`q > 0`) to the nearest `m * 2^e`
with a 53-bit `m` and `e ≥ -1074`, ties to even, `e` not yet bounded above. -/
def roundCore (p q : Nat) : Nat × Int :=
  if p = 0 then (0, -1074)
  else
    let e := ulpExp p q
    let m := rne (scaleNum p e) (scaleDen q e)
    if m = 2 ^ 53 then (2 ^ 52, e + 1) else (m, e)

/-- Round the non-negative rational `p / q` (`q > 0`) to the nearest binary64
magnitude `m * 2^e`, ties to even; `none` when the result overflows. -/
def roundMag (p q : Nat) : Option (Nat × Int) :=
  if (roundCore p q).2 > 971 then none else some (roundCore p q)

/-- The binary64 value nearest to `± p / q`; an infinity on overflow. -/
def ofRatio (neg : Bool) (p q : Nat) : F64 :=
  match roundMag p q with
  | some (m, e) => fin neg m e
  | none => inf neg

/-- The binary64 value nearest to `± n * 2^e`. -/
def ofScaled (neg : Bool) (n : Nat) (e : Int) : F64 :=
  ofRatio neg (scaleNum n (-e)) (scaleDen 1 (-e))

/-- IEEE 754 multiplication, Go's `a * b` on `float64`. -/
def mul : F64 → F64 → F64
  | nan, _ => nan
  | _, nan => nan
  | inf s, inf t => inf (xor s t)
  | inf s, fin t m _ => if m = 0 then nan else inf (xor s t)
  | fin s m _, inf t => if m = 0 then nan else inf (xor s t)
  | fin s m₁ e₁, fin t m₂ e₂ => ofScaled (xor s t) (m₁ * m₂) (e₁ + e₂)

/-- IEEE 754 division, Go's `a / b` on `float64` (no fault on a zero divisor). -/
def div : F64 → F64 → F64
  | nan, _ => nan
  | _, nan => nan
  | inf _, inf _ => nan
  | inf s, fin t _ _ => inf (xor s t)
  | fin s _ _, inf t => fin (xor s t) 0 (-1074)
  | fin s m₁ e₁, fin t m₂ e₂ =>
    if m₂ = 0 then (if m₁ = 0 then nan else inf (xor s t))
    else ofRatio (xor s t) (scaleNum m₁ (e₂ - e₁)) (scaleDen m₂ (e₂ - e₁))

end F64

/-! ## Strings and number rendering -/

/-- The decimal digit character of `d < 10`. -/
def digitChar (d : Nat) : Char := Char.ofNat (48 + d)

/-- Decimal digits of `n` pushed in front of `acc`, most significant first. -/
def decDigitsAux : Nat → Nat → GoStr → GoStr
  | 0, _, acc => acc
  | fuel + 1, n, acc =>
    if n < 10 then digitChar n :: acc
    else decDigitsAux fuel (n / 10) (digitChar (n % 10) :: acc)

/-- The decimal rendering of a natural number, without leading zeros (`"0"` for 0). -/
def decDigits (n : Nat) : GoStr := decDigitsAux (n + 1) n []

/-- The two decimal digits of `n % 100`. -/
def twoDigits (n : Nat) : GoStr := [digitChar (n / 10 % 10), digitChar (n % 10)]

/-- The magnitude of a finite value in hundredths, rounded to the nearest integer,
ties to even: the digits `%.2f` prints. -/
def hundredths : F64 → Nat
  | F64.fin _ m e => F64.rne (F64.scaleNum (m * 100) (-e)) (F64.scaleDen 1 (-e))
  | _ => 0

/-- Go's `fmt.Sprintf("%.2f", v)`: the exact decimal expansion of the value rounded
to two decimals (ties to even), a leading `-` when the sign bit is set. -/
def Sprintf2f : F64 → GoStr
  | F64.nan => "NaN".data
  | F64.inf false => "+Inf".data
  | F64.inf true => "-Inf".data
  | F64.fin s m e =>
    (if s then ['-'] else []) ++
      (decDigits (hundredths (F64.fin s m e) / 100) ++
        '.' :: twoDigits (hundredths (F64.fin s m e) % 100))

/-- Go's `strings.Split(s, sep)` for a one-character separator. -/
def Split : GoStr → Char → List GoStr
  | [], _ => [[]]
  | c :: cs, sep =>
    if c = sep then [] :: Split cs sep
    else
      match Split cs sep with
      | [] => [[c]]
      | p :: ps => (c :: p) :: ps

/-- Go's `strings.ReplaceAll(s, old, new)` for a one-character `old`. -/
def ReplaceAll : GoStr → Char → GoStr → GoStr
  | [], _, _ => []
  | c :: cs, old, new => (if c = old then new else [c]) ++ ReplaceAll cs old new

/-- Go's `unicode.IsSpace`. -/
def isSpace (c : Char) : Bool :=
  let n := c.toNat
  (9 ≤ n && n ≤ 13) || n == 32 || n == 0x85 || n == 0xA0 || n == 0x1680 ||
    (0x2000 ≤ n && n ≤ 0x200A) || n == 0x2028 || n == 0x2029 || n == 0x202F ||
    n == 0x205F || n == 0x3000

/-- Go's `strings.TrimSpace`. -/
def TrimSpace (s : GoStr) : GoStr :=
  ((s.dropWhile isSpace).reverse.dropWhile isSpace).reverse

/-! ## FormatearMonto -/

/-- The loop of `FormatearMonto`: byte `i` of the integer part is written after a
comma when `i > 0` and `(nChars - i) % 3 == 0`. -/
def formatLoop (nChars : Nat) : Nat → GoStr → GoStr
  | _, [] => []
  | i, c :: cs =>
    (if 0 < i ∧ (nChars - i) % 3 = 0 then [','] else []) ++
      c :: formatLoop nChars (i + 1) cs

/-- The Go function `FormatearMonto`. -/
def FormatearMonto (valor : F64) : GoStr :=
  let s := Sprintf2f valor
  let parts := Split s '.'
  let integerPart := parts.getD 0 []
  let decimalPart := if parts.length > 1 then parts.getD 1 [] else "00".data
  let formattedInteger := formatLoop integerPart.length 0 integerPart
  formattedInteger ++ '.' :: decimalPart

/-! ## strconv.ParseFloat -/

/-- The two errors of `strconv.ParseFloat`: `ErrSyntax` and `ErrRange`. -/
inductive NumError where
  | errSyntax : NumError
  | errRange : NumError
  deriving DecidableEq, Repr

/-- A decimal digit. -/
def isDigit (c : Char) : Bool := decide (48 ≤ c.toNat) && decide (c.toNat ≤ 57)

/-- The value of a decimal digit. -/
def digitVal (c : Char) : Nat := c.toNat - 48

/-- ASCII lower-casing of a letter. -/
def lower (c : Char) : Char :=
  if 65 ≤ c.toNat ∧ c.toNat ≤ 90 then Char.ofNat (c.toNat + 32) else c

/-- A hexadecimal letter digit, `a`-`f` or `A`-`F`. -/
def isHexLetter (c : Char) : Bool :=
  decide (97 ≤ (lower c).toNat) && decide ((lower c).toNat ≤ 102)

/-- The value of a hexadecimal letter digit. -/
def hexLetterVal (c : Char) : Nat := (lower c).toNat - 97 + 10

/-- Length of the longest common start of `s`, lower-cased, and `word`. -/
def commonLenIgnoreCase : GoStr → GoStr → Nat
  | c :: cs, p :: ps => if lower c = p then commonLenIgnoreCase cs ps + 1 else 0
  | _, _ => 0

/-- The `inf` / `infinity` case of `special`: value and number of bytes read. -/
def specialInf (neg : Bool) (nsign : Nat) (s : GoStr) : Option (F64 × Nat) :=
  let n := commonLenIgnoreCase s "infinity".data
  let n := if 3 < n ∧ n < 8 then 3 else n
  if n = 3 ∨ n = 8 then some (F64.inf neg, nsign + n) else none

/-- The function `special` of strconv: reads `[+-]inf`, `[+-]infinity` or `nan`,
ignoring case, from the start of `s`. -/
def special : GoStr → Option (F64 × Nat)
  | [] => none
  | c :: cs =>
    if c = '+' then specialInf false 1 cs
    else if c = '-' then specialInf true 1 cs
    else if c = 'i' ∨ c = 'I' then specialInf false 0 (c :: cs)
    else if c = 'n' ∨ c = 'N' then
      (if commonLenIgnoreCase (c :: cs) "nan".data = 3 then some (F64.nan, 3) else none)
    else none

/-- What the significand loop of `readFloat` has seen. -/
structure MantState where
  val : Nat
  frac : Nat
  sawdot : Bool
  sawdigits : Bool
  underscores : Bool
  deriving DecidableEq, Repr

/-- The significand loop of `readFloat`: digits, underscores and at most one
point; returns the state and the unread input. -/
def readMant (hex : Bool) : GoStr → MantState → MantState × GoStr
  | [], st => (st, [])
  | c :: cs, st =>
    if c = '_' then readMant hex cs { st with underscores := true }
    else if c = '.' then
      (if st.sawdot then (st, c :: cs) else readMant hex cs { st with sawdot := true })
    else if isDigit c then
      readMant hex cs
        { st with sawdigits := true,
                  val := st.val * (if hex then 16 else 10) + digitVal c,
                  frac := if st.sawdot then st.frac + 1 else st.frac }
    else if hex && isHexLetter c then
      readMant hex cs
        { st with sawdigits := true,
                  val := st.val * 16 + hexLetterVal c,
                  frac := if st.sawdot then st.frac + 1 else st.frac }
    else (st, c :: cs)

/-- The exponent-digit loop of `readFloat`; the exponent stops growing at 10000. -/
def readExpDigits : GoStr → Nat → Bool → Nat × Bool × GoStr
  | [], e, u => (e, u, [])
  | c :: cs, e, u =>
    if c = '_' then readExpDigits cs e true
    else if isDigit c then
      readExpDigits cs (if e < 10000 then e * 10 + digitVal c else e) u
    else (e, u, c :: cs)

/-- The loop of `underscoreOK`; `saw` is the class of the last character. -/
def underscoreOKLoop (hex : Bool) : GoStr → Char → Bool
  | [], saw => saw != '_'
  | c :: cs, saw =>
    if isDigit c || (hex && isHexLetter c) then underscoreOKLoop hex cs '0'
    else if c = '_' then (if saw != '0' then false else underscoreOKLoop hex cs '_')
    else if saw = '_' then false
    else underscoreOKLoop hex cs '!'

/-- The function `underscoreOK` of strconv: underscores only between digits, or
between a base mark and a digit. -/
def underscoreOK (s : GoStr) : Bool :=
  let t := match s with
    | c :: cs => if c = '-' ∨ c = '+' then cs else s
    | [] => s
  match t with
  | a :: b :: rest =>
    if a = '0' ∧ (lower b = 'b' ∨ lower b = 'o' ∨ lower b = 'x') then
      underscoreOKLoop (lower b = 'x') rest '0'
    else underscoreOKLoop false t '^'
  | _ => underscoreOKLoop false t '^'

/-- What `readFloat` returns on success: sign, base, all significand digits as one
number, the exponent of the base-10 (or base-2 when `hex`) scale, unread input. -/
structure Scanned where
  neg : Bool
  hex : Bool
  mant : Nat
  exp : Int
  rest : GoStr
  deriving DecidableEq, Repr

/-- Last step of `readFloat`: the check of the underscores in the bytes read. -/
def readFloatEnd (s : GoStr) (neg hex : Bool) (st : MantState) (e : Int)
    (underscores : Bool) (rest : GoStr) : Option Scanned :=
  if underscores && !underscoreOK (s.take (s.length - rest.length)) then none
  else some ⟨neg, hex, st.val, e - (if hex then 4 else 1) * st.frac, rest⟩

/-- The optional sign at the start of `readFloat`: whether it is `-`, and the
input after it. -/
def readSign : GoStr → Bool × GoStr
  | c :: cs => if c = '+' then (false, cs) else if c = '-' then (true, cs) else (false, c :: cs)
  | [] => (false, [])

/-- The base mark of `readFloat`: `0x` followed by at least one more byte selects
base 16. -/
def readBase : GoStr → Bool × GoStr
  | a :: b :: c :: cs =>
    if a = '0' ∧ lower b = 'x' then (true, c :: cs) else (false, a :: b :: c :: cs)
  | s => (false, s)

/-- The optional exponent of `readFloat` (`e`, or `p` in base 16, where it is
required), then the check of the underscores; `rest` is the input after the
significand. -/
def readExponent (s : GoStr) (neg hex : Bool) (st : MantState) (rest : GoStr) :
    Option Scanned :=
  match rest with
  | [] => if hex then none else readFloatEnd s neg hex st 0 st.underscores []
  | c :: cs =>
    if lower c = (if hex then 'p' else 'e') then
      match cs with
      | [] => none
      | d :: ds =>
        let esigned : Int × GoStr :=
          if d = '+' then (1, ds) else if d = '-' then (-1, ds) else (1, d :: ds)
        match esigned.2 with
        | [] => none
        | x :: xs =>
          if !isDigit x then none
          else
            let ex := readExpDigits (x :: xs) 0 st.underscores
            readFloatEnd s neg hex st (esigned.1 * ex.1) ex.2.1 ex.2.2
    else if hex then none
    else readFloatEnd s neg hex st 0 st.underscores (c :: cs)

/-- The function `readFloat` of strconv, keeping every significand digit. -/
def readFloat (s : GoStr) : Option Scanned :=
  let signed := readSign s
  let based := readBase signed.2
  let read := readMant based.1 based.2 ⟨0, 0, false, false, false⟩
  if !read.1.sawdigits then none
  else readExponent s signed.1 based.1 read.1 read.2

/-- Round `mant * 10^exp` (or `mant * 2^exp` when `hex`) to binary64. -/
def roundScanned (hex : Bool) (mant : Nat) (exp : Int) : Option (Nat × Int) :=
  if hex then F64.roundMag (F64.scaleNum mant (-exp)) (F64.scaleDen 1 (-exp))
  else if exp < 0 then F64.roundMag mant (10 ^ (-exp).toNat)
  else F64.roundMag (mant * 10 ^ exp.toNat) 1

/-- Go's `strconv.ParseFloat(s, 64)`: the whole of `s` must be a number; the
result is the nearest binary64 value, ties to even, and a value that rounds
beyond the largest finite one is a range error. -/
def ParseFloat (s : GoStr) : Except NumError F64 :=
  match special s with
  | some (v, n) => if n = s.length then .ok v else .error .errSyntax
  | none =>
    match readFloat s with
    | none => .error .errSyntax
    | some r =>
      if r.rest ≠ [] then .error .errSyntax
      else
        match roundScanned r.hex r.mant r.exp with
        | none => .error .errRange
        | some (m, e) => .ok (F64.fin r.neg m e)

/-! ## The rate cache -/

/-- Largest `time.Duration`, in nanoseconds. -/
def maxDuration : Int := 2 ^ 63 - 1

/-- Smallest `time.Duration`, in nanoseconds. -/
def minDuration : Int := -(2 ^ 63)

/-- Go's `time.Since(t)` at clock reading `now`, both instants in nanoseconds:
the difference, saturated to the range of `time.Duration`. -/
def Since (now t : Int) : Int :=
  if now - t > maxDuration then maxDuration
  else if now - t < minDuration then minDuration
  else now - t

/-- The variable `cacheDuration`: `10 * time.Minute`, in nanoseconds. -/
def cacheDuration : Int := 10 * (60 * 1000000000)

/-- The package variables `cachedRate` and `lastFetchTime`. -/
structure Cache where
  cachedRate : F64
  lastFetchTime : Int
  deriving DecidableEq, Repr

/-- The state at program start: both variables hold their zero value. -/
def Cache.initial : Cache := ⟨F64.zero, 0⟩

/-- The errors `GetDollarRate` returns, one per `fmt.Errorf` of the function. -/
inductive FetchError where
  | connect : FetchError
  | status (code : Int) : FetchError
  | document : FetchError
  | notFound : FetchError
  | convert (rateStr : GoStr) (err : NumError) : FetchError
  deriving DecidableEq, Repr

/-- What one request to `https://www.bcv.org.ve/` answers: whether `http.Get`
fails, the status code, whether the body fails to parse as a document, and the
`Text()` of every node selected by `#dolar .centrado strong`, in document order. -/
structure Upstream where
  getFails : Bool
  statusCode : Int
  docFails : Bool
  strongTexts : List GoStr
  deriving DecidableEq, Repr

/-- The environment of one call of `GetDollarRate`: the clock when
`time.Since(lastFetchTime)` is evaluated, what the BCV site answers if it is
asked, and the clock when `time.Now()` is evaluated after the answer. -/
structure Call where
  now : Int
  upstream : Upstream
  storeTime : Int
  deriving DecidableEq, Repr

/-- The callback of `Each` run over the selected nodes: `rateStr` ends as the
trimmed text of the last node, and stays empty when no node is selected. -/
def eachRateStr (texts : List GoStr) : GoStr := texts.foldl (fun _ t => TrimSpace t) []

/-- The part of `GetDollarRate` after the selection: the empty check, comma to
period, `ParseFloat`. -/
def convertRate (rateStr : GoStr) : Except FetchError F64 :=
  if rateStr = [] then .error .notFound
  else
    let rateStr := ReplaceAll rateStr ',' ['.']
    match ParseFloat rateStr with
    | .error err => .error (.convert rateStr err)
    | .ok rate => .ok rate

/-- The rate-parsing step of `GetDollarRate` on the text of the selected node:
trim, the empty check, comma to period, `ParseFloat`. -/
def parseRate (text : GoStr) : Except FetchError F64 := convertRate (eachRateStr [text])

/-- The miss path of `GetDollarRate` up to the cache update: request, status
check, document, selection, conversion. -/
def fetchRate (u : Upstream) : Except FetchError F64 :=
  if u.getFails then .error .connect
  else if u.statusCode ≠ 200 then .error (.status u.statusCode)
  else if u.docFails then .error .document
  else convertRate (eachRateStr u.strongTexts)

/-- The result of one call of `GetDollarRate`: what it returns, the cache it
leaves, and how many requests it sent to the BCV site. -/
structure Outcome where
  result : Except FetchError F64
  cache : Cache
  fetches : Nat

/-- The Go function `GetDollarRate`, run under the mutex from start to end. -/
def GetDollarRate (c : Cache) (call : Call) : Outcome :=
  if Since call.now c.lastFetchTime < cacheDuration ∧ c.cachedRate.isZero = false then
    ⟨.ok c.cachedRate, c, 0⟩
  else
    match fetchRate call.upstream with
    | .error err => ⟨.error err, c, 1⟩
    | .ok rate => ⟨.ok rate, ⟨rate, call.storeTime⟩, 1⟩

/-- Calls of `GetDollarRate` run one after the other, as the mutex orders them:
the results in call order, the final cache, and the number of requests sent. -/
def runCalls : Cache → List Call → List (Except FetchError F64) × Cache × Nat
  | c, [] => ([], c, 0)
  | c, call :: rest =>
    let o := GetDollarRate c call
    let r := runCalls o.cache rest
    (o.result :: r.1, r.2.1, o.fetches + r.2.2)

/-! ## HomeHandler -/

/-- The struct `PageData`. -/
structure PageData where
  Rate : F64
  FormattedRate : GoStr
  Converted : F64
  FormattedConverted : GoStr
  Input : F64
  FormattedInput : GoStr
  Direction : GoStr
  ErrorMessage : GoStr
  LastUpdated : GoStr
  deriving DecidableEq, Repr

/-- What `HomeHandler` reads of the request: `r.Method`, `r.FormValue("amount")`
and `r.FormValue("direction")`. -/
structure Request where
  method : GoStr
  amount : GoStr
  direction : GoStr
  deriving DecidableEq, Repr

/-- What `HomeHandler` answers: status 500 with a text, or the template executed
on a `PageData`. -/
inductive Response where
  | serverError (msg : GoStr) : Response
  | page (data : PageData) : Response
  deriving DecidableEq, Repr

/-- The message of the zero-rate guard. -/
def zeroRateMessage : GoStr :=
  "No se puede convertir de Bs a $ con una tasa de 0. La tasa actual obtenida es 0.".data

/-- The message for an amount that is not a number. -/
def invalidAmountMessage : GoStr :=
  "Monto inválido. Por favor, ingresa un número válido (ej. 10.000,50).".data

/-- The message sent with status 500 when no rate is available. -/
def noRateMessage : GoStr :=
  ("No se pudo obtener la tasa del dólar en este momento. Por favor, intenta de " ++
    "nuevo más tarde o verifica tu conexión a internet.").data

/-- The body of `HomeHandler` after a rate was obtained: the `PageData` handed to
the template.  `lastUpdated` is the formatted `time.Now()`. -/
def pageData (rate : F64) (lastUpdated : GoStr) (r : Request) : PageData :=
  let data : PageData :=
    { Rate := rate, FormattedRate := FormatearMonto rate, Converted := F64.zero,
      FormattedConverted := [], Input := F64.zero, FormattedInput := [],
      Direction := [], ErrorMessage := [], LastUpdated := lastUpdated }
  if r.method = "POST".data then
    let amountStr := r.amount
    let direction := r.direction
    let cleanAmountStr := ReplaceAll amountStr ',' []
    match ParseFloat cleanAmountStr with
    | .ok amount =>
      let data := { data with Input := amount, FormattedInput := FormatearMonto amount,
                              Direction := direction }
      if direction = "usd_to_bs".data then
        let data := { data with Converted := F64.mul amount rate }
        { data with FormattedConverted := FormatearMonto data.Converted }
      else if rate.isZero then
        { data with ErrorMessage := zeroRateMessage, FormattedInput := FormatearMonto amount }
      else
        let data := { data with Converted := F64.div amount rate }
        { data with FormattedConverted := FormatearMonto data.Converted }
    | .error _ =>
      { data with ErrorMessage := invalidAmountMessage, Direction := direction,
                  FormattedInput := amountStr }
  else
    { data with FormattedInput := "0.00".data }

/-- The Go function `HomeHandler`: the answer, and the cache `GetDollarRate` leaves. -/
def HomeHandler (c : Cache) (call : Call) (lastUpdated : GoStr) (r : Request) :
    Response × Cache :=
  let o := GetDollarRate c call
  match o.result with
  | .error _ => (.serverError noRateMessage, o.cache)
  | .ok rate => (.page (pageData rate lastUpdated r), o.cache)

/-! ## Definitions used to state the properties -/

/-- The failing answers of the BCV site: network error, status other than 200,
unparsable document, rate text not found, rate text not numeric. -/
def UpstreamFails (u : Upstream) : Prop :=
  u.getFails = true ∨ u.statusCode ≠ 200 ∨ u.docFails = true ∨
    eachRateStr u.strongTexts = [] ∨
    ∃ err, ParseFloat (ReplaceAll (eachRateStr u.strongTexts) ',' ['.']) = .error err

/-- An answer of the BCV site with status 200 and one selected node of text `t`. -/
def pageWith (t : GoStr) : Upstream := ⟨false, 200, false, [t]⟩

/-- Groups of three characters from the left, the last one possibly shorter. -/
def chunksOf3 : GoStr → List GoStr
  | [] => []
  | [a] => [[a]]
  | [a, b] => [[a, b]]
  | a :: b :: c :: rest => [a, b, c] :: chunksOf3 rest

/-- The digits split into groups counted from the right: every group has three
digits, except the leftmost, which has one to three. -/
def groupsFromRight (ds : GoStr) : List GoStr :=
  ((chunksOf3 ds.reverse).map List.reverse).reverse

/-- The groups written one after the other with a comma between neighbours. -/
def joinComma : List GoStr → GoStr
  | [] => []
  | [g] => g
  | g :: h :: gs => g ++ ',' :: joinComma (h :: gs)

/-- The rendering the specification describes: the value rounded to two decimals,
its integer digits in comma-separated groups counted from the right, a period,
and two decimal digits; in front, the sign the Go rendering carries. -/
def groupedRendering (v : F64) : GoStr :=
  (if v.signBit then ['-'] else []) ++
    (joinComma (groupsFromRight (decDigits (hundredths v / 100))) ++
      '.' :: twoDigits (hundredths v % 100))

/-- The number a string of decimal digits denotes. -/
def digitsValue (ds : GoStr) : Nat := ds.foldl (fun a c => a * 10 + digitVal c) 0

/-- The rational number `m * 2^e`. -/
def magVal (m : Nat) (e : Int) : ℚ := (m : ℚ) * (2 : ℚ) ^ e

/-- The magnitude of a finite value, as a rational number (0 for NaN and the
infinities). -/
def F64.mag : F64 → ℚ
  | F64.fin _ m e => magVal m e
  | _ => 0

/-- The least magnitude that rounds beyond the largest finite binary64 value:
`2^1024 - 2^970`, halfway between that value and `2^1024`. -/
def overflowThreshold : ℚ := (2 : ℚ) ^ 1024 - (2 : ℚ) ^ 970

/-- IEEE 754 round-to-nearest, ties to even, of the magnitude `x` with sign
`neg`: from the overflow threshold on the result is the infinity; below it, the
result is a binary64 value no farther from `x` than any `M * 2^E` with a 53-bit
`M` and `E ≥ -1074`, and its significand is even whenever another such value is
just as near. -/
def IsRounded (neg : Bool) (x : ℚ) (r : F64) : Prop :=
  (overflowThreshold ≤ x → r = F64.inf neg) ∧
    (x < overflowThreshold →
      ∃ (m : Nat) (e : Int), r = F64.fin neg m e ∧ (F64.fin neg m e).IsBinary64 ∧
        (∀ (M : Nat) (E : Int), M < 2 ^ 53 → -1074 ≤ E →
          |magVal m e - x| ≤ |magVal M E - x|) ∧
        (∀ (M : Nat) (E : Int), M < 2 ^ 53 → -1074 ≤ E → magVal M E ≠ magVal m e →
          |magVal M E - x| = |magVal m e - x| → m % 2 = 0))

/-- The quotient `a / b` IEEE 754 prescribes for a divisor `b` other than zero:
NaN when an operand is NaN or both are infinite, an infinity for an infinite
dividend, a zero for an infinite divisor, and otherwise the exact quotient of the
magnitudes rounded to nearest, ties to even; the sign is the exclusive or of the
signs. -/
def IsQuotient (a b r : F64) : Prop :=
  match a, b with
  | F64.nan, _ => r = F64.nan
  | _, F64.nan => r = F64.nan
  | F64.inf _, F64.inf _ => r = F64.nan
  | F64.inf s, F64.fin t _ _ => r = F64.inf (xor s t)
  | F64.fin s _ _, F64.inf t => r = F64.fin (xor s t) 0 (-1074)
  | F64.fin s m₁ e₁, F64.fin t m₂ e₂ =>
    IsRounded (xor s t) (magVal m₁ e₁ / magVal m₂ e₂) r

/-- The product `a * b` IEEE 754 prescribes: NaN when an operand is NaN or an
infinity meets a zero, an infinity when an operand is infinite, and otherwise the
exact product of the magnitudes rounded to nearest, ties to even; the sign is the
exclusive or of the signs. -/
def IsProduct (a b r : F64) : Prop :=
  match a, b with
  | F64.nan, _ => r = F64.nan
  | _, F64.nan => r = F64.nan
  | F64.inf s, F64.inf t => r = F64.inf (xor s t)
  | F64.inf s, F64.fin t m _ => r = if m = 0 then F64.nan else F64.inf (xor s t)
  | F64.fin s m _, F64.inf t => r = if m = 0 then F64.nan else F64.inf (xor s t)
  | F64.fin s m₁ e₁, F64.fin t m₂ e₂ =>
    IsRounded (xor s t) (magVal m₁ e₁ * magVal m₂ e₂) r

/-! ## Decimal digits -/

theorem digitChar_toNat (d : Nat) (h : d < 10) : (digitChar d).toNat = 48 + d := by
  interval_cases d <;> rfl

theorem isDigit_digitChar (d : Nat) (h : d < 10) : isDigit (digitChar d) = true := by
  interval_cases d <;> rfl

theorem digitVal_digitChar (d : Nat) (h : d < 10) : digitVal (digitChar d) = d := by
  interval_cases d <;> rfl

theorem decDigitsAux_acc (fuel n : Nat) (acc : GoStr) :
    decDigitsAux fuel n acc = decDigitsAux fuel n [] ++ acc := by
  induction fuel generalizing n acc with
  | zero => rfl
  | succ f ih =>
    simp only [decDigitsAux]
    split_ifs
    · rfl
    · rw [ih (n / 10) (digitChar (n % 10) :: acc), ih (n / 10) [digitChar (n % 10)]]
      simp

theorem decDigitsAux_fuel (f g n : Nat) (acc : GoStr) (hf : n < f) (hg : n < g) :
    decDigitsAux f n acc = decDigitsAux g n acc := by
  induction f generalizing g n acc with
  | zero => omega
  | succ f ih =>
    cases g with
    | zero => omega
    | succ g =>
      simp only [decDigitsAux]
      split_ifs with h10
      · rfl
      · exact ih g (n / 10) _ (by omega) (by omega)

/-- The decimal rendering, digit by digit. -/
theorem decDigits_eq (n : Nat) :
    decDigits n = if n < 10 then [digitChar n] else decDigits (n / 10) ++ [digitChar (n % 10)] := by
  by_cases h : n < 10
  · rw [if_pos h]
    show decDigitsAux (n + 1) n [] = _
    rw [decDigitsAux, if_pos h]
  · rw [if_neg h]
    show decDigitsAux (n + 1) n [] = decDigitsAux (n / 10 + 1) (n / 10) [] ++ _
    rw [decDigitsAux, if_neg h, decDigitsAux_acc,
      decDigitsAux_fuel n (n / 10 + 1) (n / 10) [] (by omega) (by omega)]

theorem decDigits_isDigit (n : Nat) : ∀ c ∈ decDigits n, isDigit c = true := by
  induction n using Nat.strong_induction_on with
  | _ n ih =>
    rw [decDigits_eq]
    split_ifs with h
    · intro c hc
      rw [List.mem_singleton] at hc
      subst hc
      exact isDigit_digitChar n h
    · intro c hc
      rw [List.mem_append, List.mem_singleton] at hc
      rcases hc with hc | hc
      · exact ih (n / 10) (by omega) c hc
      · subst hc
        exact isDigit_digitChar _ (Nat.mod_lt _ (by decide))

theorem decDigits_ne_nil (n : Nat) : decDigits n ≠ [] := by
  rw [decDigits_eq]
  split_ifs <;> simp

theorem twoDigits_isDigit (n : Nat) : ∀ c ∈ twoDigits n, isDigit c = true := by
  intro c hc
  simp only [twoDigits, List.mem_cons, List.mem_singleton, List.not_mem_nil, or_false] at hc
  rcases hc with hc | hc <;> subst hc <;>
    exact isDigit_digitChar _ (Nat.mod_lt _ (by decide))

theorem isDigit_toNat (c : Char) (h : isDigit c = true) : 48 ≤ c.toNat ∧ c.toNat ≤ 57 := by
  simpa [isDigit] using h

theorem isDigit_ne (c d : Char) (h : isDigit c = true) (hd : d.toNat < 48 ∨ 57 < d.toNat) :
    c ≠ d := by
  intro hcd
  subst hcd
  have := isDigit_toNat c h
  omega

/-! ## strings.Split -/

theorem Split_ne_nil (s : GoStr) (sep : Char) : Split s sep ≠ [] := by
  cases s with
  | nil => simp [Split]
  | cons c cs =>
    simp only [Split]
    split_ifs
    · simp
    · split <;> simp

theorem Split_no_sep (s : GoStr) (sep : Char) (h : ∀ c ∈ s, c ≠ sep) : Split s sep = [s] := by
  induction s with
  | nil => rfl
  | cons c cs ih =>
    have hc : c ≠ sep := h c (List.mem_cons_self _ _)
    have ih := ih (fun x hx => h x (List.mem_cons_of_mem _ hx))
    simp only [Split, if_neg hc, ih]

theorem Split_append_sep (a b : GoStr) (sep : Char) (h : ∀ c ∈ a, c ≠ sep) :
    Split (a ++ sep :: b) sep = a :: Split b sep := by
  induction a with
  | nil => simp [Split]
  | cons c cs ih =>
    have hc : c ≠ sep := h c (List.mem_cons_self _ _)
    have ih := ih (fun x hx => h x (List.mem_cons_of_mem _ hx))
    show Split (c :: (cs ++ sep :: b)) sep = _
    simp only [Split, if_neg hc, ih]

/-- `FormatearMonto` on a rendering `intPart.frac` without other periods. -/
theorem formatParts (intPart frac : GoStr) (h1 : ∀ c ∈ intPart, c ≠ '.')
    (h2 : ∀ c ∈ frac, c ≠ '.') :
    (let parts := Split (intPart ++ '.' :: frac) '.'
     formatLoop (parts.getD 0 []).length 0 (parts.getD 0 []) ++
       '.' :: (if parts.length > 1 then parts.getD 1 [] else "00".data)) =
      formatLoop intPart.length 0 intPart ++ '.' :: frac := by
  simp [Split_append_sep intPart frac '.' h1, Split_no_sep frac '.' h2]

/-! ## ParseFloat on plain decimals -/

theorem digitsFold_append (a : Nat) (xs ys : GoStr) :
    (xs ++ ys).foldl (fun a c => a * 10 + digitVal c) a =
      ys.foldl (fun a c => a * 10 + digitVal c) (xs.foldl (fun a c => a * 10 + digitVal c) a) :=
  List.foldl_append _ _ _ _

theorem digitsFold_shift (a : Nat) (xs : GoStr) :
    xs.foldl (fun a c => a * 10 + digitVal c) a = a * 10 ^ xs.length + digitsValue xs := by
  induction xs generalizing a with
  | nil => simp [digitsValue]
  | cons x t ih =>
    simp only [digitsValue, List.foldl_cons, List.length_cons, zero_mul, zero_add]
    rw [ih (a * 10 + digitVal x), ih (digitVal x)]
    ring

theorem digitsValue_append (xs ys : GoStr) :
    digitsValue (xs ++ ys) = digitsValue xs * 10 ^ ys.length + digitsValue ys := by
  unfold digitsValue
  rw [digitsFold_append, digitsFold_shift]
  rfl

theorem digitsValue_decDigits (n : Nat) : digitsValue (decDigits n) = n := by
  induction n using Nat.strong_induction_on with
  | _ n ih =>
    rw [decDigits_eq]
    split_ifs with h
    · simp [digitsValue, digitVal_digitChar n h]
    · rw [digitsValue_append, ih (n / 10) (by omega)]
      simp only [digitsValue, List.length_singleton, pow_one, List.foldl_cons, zero_mul, zero_add,
        List.foldl_nil]
      rw [digitVal_digitChar _ (Nat.mod_lt _ (by decide))]
      omega

theorem digitsValue_twoDigits (n : Nat) : digitsValue (twoDigits n) = n % 100 := by
  simp only [digitsValue, twoDigits, List.foldl_cons, zero_mul, zero_add, List.foldl_nil]
  rw [digitVal_digitChar _ (Nat.mod_lt _ (by decide)),
    digitVal_digitChar _ (Nat.mod_lt _ (by decide))]
  omega

theorem lower_of_isDigit (c : Char) (h : isDigit c = true) : lower c = c := by
  have := isDigit_toNat c h
  unfold lower
  rw [if_neg (by omega)]

theorem readMant_digits (ds : GoStr) (hd : ∀ c ∈ ds, isDigit c = true) (rest : GoStr)
    (st : MantState) :
    readMant false (ds ++ rest) st =
      readMant false rest
        { st with
          val := ds.foldl (fun a c => a * 10 + digitVal c) st.val,
          frac := if st.sawdot then st.frac + ds.length else st.frac,
          sawdigits := st.sawdigits || !ds.isEmpty } := by
  induction ds generalizing st with
  | nil =>
    cases st
    simp
  | cons d t ih =>
    have hdd : isDigit d = true := hd d (List.mem_cons_self _ _)
    have h1 : d ≠ '_' := isDigit_ne d '_' hdd (Or.inr (by decide))
    have h2 : d ≠ '.' := isDigit_ne d '.' hdd (Or.inl (by decide))
    show readMant false (d :: (t ++ rest)) st = _
    rw [readMant, if_neg h1, if_neg h2, if_pos hdd,
      ih (fun c hc => hd c (List.mem_cons_of_mem _ hc))]
    congr 1
    cases st with
    | mk v f sd sg u =>
      cases sd
      · simp
      · simp; omega

theorem commonLen_digit (d : Char) (hd : isDigit d = true) (cs : GoStr) (p : Char)
    (ps : GoStr) (hp : p.toNat < 48 ∨ 57 < p.toNat) :
    commonLenIgnoreCase (d :: cs) (p :: ps) = 0 := by
  rw [commonLenIgnoreCase, lower_of_isDigit d hd, if_neg (isDigit_ne d p hd hp)]

theorem special_digit (d : Char) (hd : isDigit d = true) (cs : GoStr) :
    special (d :: cs) = none := by
  have h1 : d ≠ '+' := isDigit_ne d '+' hd (Or.inl (by decide))
  have h2 : d ≠ '-' := isDigit_ne d '-' hd (Or.inl (by decide))
  have h3 : d ≠ 'i' := isDigit_ne d 'i' hd (Or.inr (by decide))
  have h4 : d ≠ 'I' := isDigit_ne d 'I' hd (Or.inr (by decide))
  have h5 : d ≠ 'n' := isDigit_ne d 'n' hd (Or.inr (by decide))
  have h6 : d ≠ 'N' := isDigit_ne d 'N' hd (Or.inr (by decide))
  simp [special, h1, h2, h3, h4, h5, h6]

theorem special_minus_digit (d : Char) (hd : isDigit d = true) (cs : GoStr) :
    special ('-' :: d :: cs) = none := by
  have h0 : commonLenIgnoreCase (d :: cs) "infinity".data = 0 :=
    commonLen_digit d hd cs 'i' "nfinity".data (Or.inr (by decide))
  simp [special, specialInf, h0]

/-- The scan of `readFloat` over an optional `-`, digits, a period and digits. -/
theorem readFloat_plain (neg : Bool) (ds fs : GoStr) (hds : ds ≠ []) (hfs : fs ≠ [])
    (hd : ∀ c ∈ ds, isDigit c = true) (hf : ∀ c ∈ fs, isDigit c = true) :
    readFloat ((if neg then ['-'] else []) ++ (ds ++ '.' :: fs)) =
      some ⟨neg, false, digitsValue (ds ++ fs), -(fs.length : Int), []⟩ := by
  obtain ⟨d, dt, rfl⟩ := List.exists_cons_of_ne_nil hds
  obtain ⟨f, ft, rfl⟩ := List.exists_cons_of_ne_nil hfs
  have hdd : isDigit d = true := hd d (List.mem_cons_self _ _)
  have hp : d ≠ '+' := isDigit_ne d '+' hdd (Or.inl (by decide))
  have hm : d ≠ '-' := isDigit_ne d '-' hdd (Or.inl (by decide))
  have hsigned : readSign ((if neg then ['-'] else []) ++ (d :: dt ++ '.' :: f :: ft)) =
      (neg, d :: dt ++ '.' :: f :: ft) := by
    cases neg
    · simp [readSign, hp, hm]
    · simp [readSign]
  have hbase : ∀ b c cs, (b = '.' ∨ isDigit b = true) →
      readBase (d :: b :: c :: cs) = (false, d :: b :: c :: cs) := by
    intro b c cs hb
    have hx : lower b ≠ 'x' := by
      rcases hb with hb | hb
      · subst hb; decide
      · rw [lower_of_isDigit b hb]
        exact isDigit_ne b 'x' hb (Or.inr (by decide))
    simp [readBase, hx]
  have hbased : readBase (d :: dt ++ '.' :: f :: ft) = (false, d :: dt ++ '.' :: f :: ft) := by
    cases dt with
    | nil => exact hbase '.' f ft (Or.inl rfl)
    | cons d2 dt2 =>
      have hd2 : isDigit d2 = true :=
        hd d2 (List.mem_cons_of_mem _ (List.mem_cons_self _ _))
      cases dt2 with
      | nil => exact hbase d2 '.' (f :: ft) (Or.inr hd2)
      | cons d3 dt3 => exact hbase d2 d3 (dt3 ++ '.' :: f :: ft) (Or.inr hd2)
  have hmant : readMant false (d :: dt ++ '.' :: f :: ft) ⟨0, 0, false, false, false⟩ =
      (⟨digitsValue ((d :: dt) ++ (f :: ft)), (f :: ft).length, true, true, false⟩, []) := by
    rw [readMant_digits (d :: dt) hd]
    rw [readMant, if_neg (by decide), if_pos rfl]
    simp only [Bool.false_eq_true, if_false]
    have h := readMant_digits (f :: ft) hf []
    rw [List.append_nil] at h
    rw [h, readMant]
    simp [digitsValue, digitsFold_append]
  unfold readFloat
  simp only [hsigned, hbased, hmant]
  simp [readExponent, readFloatEnd]

/-- `ParseFloat` on an optional `-`, digits, a period and digits: the nearest
binary64 value to the decimal number, or a range error. -/
theorem ParseFloat_plain (neg : Bool) (ds fs : GoStr) (hds : ds ≠ []) (hfs : fs ≠ [])
    (hd : ∀ c ∈ ds, isDigit c = true) (hf : ∀ c ∈ fs, isDigit c = true) :
    ParseFloat ((if neg then ['-'] else []) ++ (ds ++ '.' :: fs)) =
      match F64.roundMag (digitsValue (ds ++ fs)) (10 ^ fs.length) with
      | some (m, e) => .ok (F64.fin neg m e)
      | none => .error .errRange := by
  have hspecial : special ((if neg then ['-'] else []) ++ (ds ++ '.' :: fs)) = none := by
    obtain ⟨d, dt, rfl⟩ := List.exists_cons_of_ne_nil hds
    have hdd : isDigit d = true := hd d (List.mem_cons_self _ _)
    cases neg
    · exact special_digit d hdd _
    · exact special_minus_digit d hdd _
  have hlen : 0 < fs.length := List.length_pos.2 hfs
  have hexp : (-(fs.length : Int)) < 0 := by omega
  unfold ParseFloat
  rw [hspecial, readFloat_plain neg ds fs hds hfs hd hf]
  simp only [ne_eq, not_true_eq_false, if_false, roundScanned, Bool.false_eq_true, hexp, if_true,
    neg_neg, Int.toNat_ofNat]
  cases F64.roundMag (digitsValue (ds ++ fs)) (10 ^ fs.length) with
  | none => rfl
  | some me => rfl

/-! ## Rounding: the model of binary64 is round-to-nearest, ties to even -/

theorem rne_cases (a d : Nat) :
    (F64.rne a d = a / d ∧ 2 * (a % d) < d) ∨
      (F64.rne a d = a / d + 1 ∧ d < 2 * (a % d)) ∨
      (2 * (a % d) = d ∧ F64.rne a d % 2 = 0 ∧
        (F64.rne a d = a / d ∨ F64.rne a d = a / d + 1)) := by
  unfold F64.rne
  simp only
  by_cases h1 : 2 * (a % d) < d
  · left
    rw [if_pos h1]
    exact ⟨rfl, h1⟩
  · rw [if_neg h1]
    by_cases h2 : 2 * (a % d) = d
    · right; right
      rw [if_pos h2]
      refine ⟨h2, ?_⟩
      by_cases h3 : a / d % 2 = 0
      · rw [if_pos h3]
        exact ⟨h3, Or.inl rfl⟩
      · rw [if_neg h3]
        exact ⟨by omega, Or.inr rfl⟩
    · right; left
      rw [if_neg h2]
      exact ⟨rfl, by omega⟩

theorem ratio_eq_div_add (a d : Nat) (hd : 0 < d) :
    (a : ℚ) / d = (a / d : ℕ) + ((a % d : ℕ) : ℚ) / d := by
  have hd' : (d : ℚ) ≠ 0 := by exact_mod_cast hd.ne'
  have h := Nat.div_add_mod a d
  have hq : (a : ℚ) = d * (a / d : ℕ) + (a % d : ℕ) := by exact_mod_cast h.symm
  field_simp
  linarith

/-- The result of `rne` is an integer nearest to `a / d`, and an even one when
`a / d` lies halfway between two integers. -/
theorem rne_spec (a d : Nat) (hd : 0 < d) :
    |(F64.rne a d : ℚ) - a / d| ≤ 1 / 2 ∧
      (|(F64.rne a d : ℚ) - a / d| = 1 / 2 → F64.rne a d % 2 = 0) := by
  have hd' : (0 : ℚ) < d := by exact_mod_cast hd
  have hr0 : (0 : ℚ) ≤ ((a % d : ℕ) : ℚ) / d := by positivity
  rw [ratio_eq_div_add a d hd]
  rcases rne_cases a d with ⟨hk, hlt⟩ | ⟨hk, hgt⟩ | ⟨heq, heven, hk⟩
  · have hlt' : ((a % d : ℕ) : ℚ) / d < 1 / 2 := by
      rw [div_lt_iff₀ hd']
      have : (2 : ℚ) * ((a % d : ℕ) : ℚ) < d := by exact_mod_cast hlt
      linarith
    rw [hk]
    have habs : |((a / d : ℕ) : ℚ) - ((a / d : ℕ) + ((a % d : ℕ) : ℚ) / d)| =
        ((a % d : ℕ) : ℚ) / d := by
      rw [abs_sub_comm, add_sub_cancel_left, abs_of_nonneg hr0]
    rw [habs]
    exact ⟨hlt'.le, fun h => absurd h hlt'.ne⟩
  · have hgt' : 1 / 2 < ((a % d : ℕ) : ℚ) / d := by
      rw [lt_div_iff₀ hd']
      have : (d : ℚ) < (2 : ℚ) * ((a % d : ℕ) : ℚ) := by exact_mod_cast hgt
      linarith
    have hlt1 : ((a % d : ℕ) : ℚ) / d < 1 := by
      rw [div_lt_one hd']
      exact_mod_cast Nat.mod_lt a hd
    rw [hk]
    have habs : |(((a / d + 1 : ℕ) : ℕ) : ℚ) - ((a / d : ℕ) + ((a % d : ℕ) : ℚ) / d)| =
        1 - ((a % d : ℕ) : ℚ) / d := by
      push_cast
      rw [show ((a / d : ℕ) : ℚ) + 1 - (((a / d : ℕ) : ℚ) + ((a % d : ℕ) : ℚ) / d) =
        1 - ((a % d : ℕ) : ℚ) / d by ring]
      exact abs_of_nonneg (by linarith)
    rw [habs]
    exact ⟨by linarith, fun h => absurd h (by linarith)⟩
  · have hhalf : ((a % d : ℕ) : ℚ) / d = 1 / 2 := by
      rw [div_eq_iff hd'.ne']
      have : (2 : ℚ) * ((a % d : ℕ) : ℚ) = d := by exact_mod_cast heq
      linarith
    rw [hhalf]
    refine ⟨?_, fun _ => heven⟩
    rcases hk with hk | hk
    · rw [hk]
      rw [show ((a / d : ℕ) : ℚ) - (((a / d : ℕ) : ℚ) + 1 / 2) = -(1 / 2) by ring]
      rw [abs_neg, abs_of_pos (by norm_num)]
    · rw [hk]
      push_cast
      rw [show ((a / d : ℕ) : ℚ) + 1 - (((a / d : ℕ) : ℚ) + 1 / 2) = 1 / 2 by ring]
      rw [abs_of_pos (by norm_num)]

/-- A natural number within one half of `a / d`, even when exactly one half away,
is the result of `rne`. -/
theorem rne_unique (a d n : Nat) (hd : 0 < d)
    (hn : |(n : ℚ) - a / d| ≤ 1 / 2)
    (htie : |(n : ℚ) - a / d| = 1 / 2 → n % 2 = 0) : F64.rne a d = n := by
  obtain ⟨hk, hktie⟩ := rne_spec a d hd
  set k := F64.rne a d with hkdef
  have hdist : |(k : ℚ) - n| ≤ 1 := by
    have := abs_sub_le (k : ℚ) (a / d) n
    rw [abs_sub_comm ((a : ℚ) / d) n] at this
    linarith
  have hint : |(k : ℤ) - n| ≤ 1 := by
    have : ((|(k : ℤ) - n| : ℤ) : ℚ) ≤ 1 := by
      push_cast
      exact hdist
    exact_mod_cast this
  by_contra hne
  have hone : |(k : ℤ) - n| = 1 := by
    have : (k : ℤ) - n ≠ 0 := by
      intro h
      apply hne
      omega
    have := abs_pos.2 this
    omega
  have honeq : |(k : ℚ) - n| = 1 := by
    have : ((|(k : ℤ) - n| : ℤ) : ℚ) = 1 := by rw [hone]; norm_num
    push_cast at this
    exact this
  have hsum := abs_sub_le (k : ℚ) (a / d) n
  rw [abs_sub_comm ((a : ℚ) / d) n, honeq] at hsum
  have h1 : |(k : ℚ) - a / d| = 1 / 2 := by linarith
  have h2 : |(n : ℚ) - a / d| = 1 / 2 := by linarith
  have hk2 := hktie h1
  have hn2 := htie h2
  rcases abs_eq (by norm_num : (0 : ℤ) ≤ 1) |>.1 hone with h | h <;> omega

/-- No integer is nearer to `a / d` than the result of `rne`. -/
theorem rne_nearest (a d : Nat) (hd : 0 < d) (z : ℤ) :
    |(F64.rne a d : ℚ) - a / d| ≤ |(z : ℚ) - a / d| := by
  obtain ⟨hk, -⟩ := rne_spec a d hd
  by_cases hz : (z : ℚ) = F64.rne a d
  · rw [hz]
  · have hne : (z : ℤ) ≠ (F64.rne a d : ℤ) := by
      intro h
      apply hz
      rw [h]
      norm_num
    have h1 : (1 : ℤ) ≤ |z - (F64.rne a d : ℤ)| := by
      have := abs_pos.2 (sub_ne_zero.2 hne)
      omega
    have h1q : (1 : ℚ) ≤ |(z : ℚ) - (F64.rne a d : ℕ)| := by
      have : ((1 : ℤ) : ℚ) ≤ ((|z - (F64.rne a d : ℤ)| : ℤ) : ℚ) := by exact_mod_cast h1
      push_cast at this
      exact this
    have := abs_sub_le (z : ℚ) (a / d) (F64.rne a d : ℕ)
    rw [abs_sub_comm ((a : ℚ) / d) _] at this
    linarith

theorem scale_ratio (p q : Nat) (e : Int) :
    ((F64.scaleNum p e : ℕ) : ℚ) / (F64.scaleDen q e : ℕ) = (p : ℚ) / q / (2 : ℚ) ^ e := by
  have h2 : (2 : ℚ) ≠ 0 := by norm_num
  unfold F64.scaleNum F64.scaleDen
  by_cases he : e < 0
  · rw [if_pos he, if_pos he]
    have hn : (((-e).toNat : ℕ) : ℤ) = -e := Int.toNat_of_nonneg (by omega)
    have hpow : ((2 : ℚ) ^ (-e).toNat) = ((2 : ℚ) ^ e)⁻¹ := by
      rw [← zpow_natCast, hn, zpow_neg]
    push_cast
    rw [hpow]
    field_simp
    ring
  · rw [if_neg he, if_neg he]
    have hn : ((e.toNat : ℕ) : ℤ) = e := Int.toNat_of_nonneg (by omega)
    have hpow : ((2 : ℚ) ^ e.toNat) = (2 : ℚ) ^ e := by
      rw [← zpow_natCast, hn]
    push_cast
    rw [hpow]
    field_simp

theorem scaleDen_pos (q : Nat) (e : Int) (hq : 0 < q) : 0 < F64.scaleDen q e := by
  unfold F64.scaleDen
  split_ifs
  · exact hq
  · positivity

theorem bitLenAux_spec (fuel n acc : Nat) (h : n ≤ fuel) :
    ∃ k, F64.bitLenAux fuel n acc = acc + k ∧
      ((n = 0 ∧ k = 0) ∨ (0 < k ∧ 2 ^ (k - 1) ≤ n ∧ n < 2 ^ k)) := by
  induction fuel generalizing n acc with
  | zero =>
    refine ⟨0, rfl, Or.inl ⟨by omega, rfl⟩⟩
  | succ f ih =>
    by_cases h0 : n = 0
    · refine ⟨0, ?_, Or.inl ⟨h0, rfl⟩⟩
      simp [F64.bitLenAux, h0]
    · obtain ⟨k, hk, hcases⟩ := ih (n / 2) (acc + 1) (by omega)
      refine ⟨k + 1, ?_, Or.inr ⟨by omega, ?_⟩⟩
      · rw [F64.bitLenAux, if_neg h0, hk]
        omega
      · rcases hcases with ⟨hz, hk0⟩ | ⟨hkpos, hlo, hhi⟩
        · subst hk0
          have : n = 1 := by omega
          subst this
          simp
        · have hp : 2 ^ k = 2 * 2 ^ (k - 1) := by
            rw [← pow_succ']
            congr 1
            omega
          rw [Nat.add_sub_cancel, pow_succ]
          omega

/-- The number of binary digits of a positive number. -/
theorem bitLen_spec (n : Nat) (hn : 0 < n) :
    0 < F64.bitLen n ∧ 2 ^ (F64.bitLen n - 1) ≤ n ∧ n < 2 ^ F64.bitLen n := by
  obtain ⟨k, hk, hcases⟩ := bitLenAux_spec n n 0 le_rfl
  have : F64.bitLen n = k := by
    unfold F64.bitLen
    rw [hk, Nat.zero_add]
  rw [this]
  rcases hcases with ⟨h0, -⟩ | h
  · omega
  · exact h

theorem two_zpow_pos (e : Int) : (0 : ℚ) < (2 : ℚ) ^ e := zpow_pos (by norm_num) e

theorem ratio_bounds (p q : Nat) (hp : 0 < p) (hq : 0 < q) :
    (2 : ℚ) ^ ((F64.bitLen p : Int) - (F64.bitLen q : Int) - 1) < (p : ℚ) / q ∧
      (p : ℚ) / q < (2 : ℚ) ^ ((F64.bitLen p : Int) - (F64.bitLen q : Int) + 1) := by
  obtain ⟨hlp, hplo, hphi⟩ := bitLen_spec p hp
  obtain ⟨hlq, hqlo, hqhi⟩ := bitLen_spec q hq
  have hq' : (0 : ℚ) < q := by exact_mod_cast hq
  have h2 : (2 : ℚ) ≠ 0 := by norm_num
  have hplo' : (2 : ℚ) ^ ((F64.bitLen p : Int) - 1) ≤ p := by
    have : ((2 ^ (F64.bitLen p - 1) : ℕ) : ℚ) ≤ p := by exact_mod_cast hplo
    have hc : ((F64.bitLen p - 1 : ℕ) : ℤ) = (F64.bitLen p : Int) - 1 := by omega
    rw [← hc, zpow_natCast]
    exact_mod_cast this
  have hphi' : (p : ℚ) < (2 : ℚ) ^ (F64.bitLen p : Int) := by
    rw [zpow_natCast]
    exact_mod_cast hphi
  have hqlo' : (2 : ℚ) ^ ((F64.bitLen q : Int) - 1) ≤ q := by
    have : ((2 ^ (F64.bitLen q - 1) : ℕ) : ℚ) ≤ q := by exact_mod_cast hqlo
    have hc : ((F64.bitLen q - 1 : ℕ) : ℤ) = (F64.bitLen q : Int) - 1 := by omega
    rw [← hc, zpow_natCast]
    exact_mod_cast this
  have hqhi' : (q : ℚ) < (2 : ℚ) ^ (F64.bitLen q : Int) := by
    rw [zpow_natCast]
    exact_mod_cast hqhi
  constructor
  · rw [lt_div_iff₀ hq']
    have e1 : (2 : ℚ) ^ ((F64.bitLen p : Int) - (F64.bitLen q : Int) - 1) *
        (2 : ℚ) ^ (F64.bitLen q : Int) = (2 : ℚ) ^ ((F64.bitLen p : Int) - 1) := by
      rw [← zpow_add₀ h2]
      congr 1
      ring
    calc (2 : ℚ) ^ ((F64.bitLen p : Int) - (F64.bitLen q : Int) - 1) * q
        < (2 : ℚ) ^ ((F64.bitLen p : Int) - (F64.bitLen q : Int) - 1) *
            (2 : ℚ) ^ (F64.bitLen q : Int) :=
          mul_lt_mul_of_pos_left hqhi' (two_zpow_pos _)
      _ = (2 : ℚ) ^ ((F64.bitLen p : Int) - 1) := e1
      _ ≤ p := hplo'
  · rw [div_lt_iff₀ hq']
    have e1 : (2 : ℚ) ^ ((F64.bitLen p : Int) - (F64.bitLen q : Int) + 1) *
        (2 : ℚ) ^ ((F64.bitLen q : Int) - 1) = (2 : ℚ) ^ (F64.bitLen p : Int) := by
      rw [← zpow_add₀ h2]
      congr 1
      ring
    calc (p : ℚ) < (2 : ℚ) ^ (F64.bitLen p : Int) := hphi'
      _ = (2 : ℚ) ^ ((F64.bitLen p : Int) - (F64.bitLen q : Int) + 1) *
            (2 : ℚ) ^ ((F64.bitLen q : Int) - 1) := e1.symm
      _ ≤ (2 : ℚ) ^ ((F64.bitLen p : Int) - (F64.bitLen q : Int) + 1) * q :=
          mul_le_mul_of_nonneg_left hqlo' (two_zpow_pos _).le

theorem natDiv_lt_iff (a d n : Nat) (hd : 0 < d) :
    a / d < n ↔ (a : ℚ) / d < n := by
  have hd' : (0 : ℚ) < d := by exact_mod_cast hd
  rw [Nat.div_lt_iff_lt_mul hd, div_lt_iff₀ hd']
  exact_mod_cast Iff.rfl

theorem ulpExp_ge (p q : Nat) : -1074 ≤ F64.ulpExp p q := by
  unfold F64.ulpExp
  exact le_max_right _ _

/-- With the exponent `ulpExp`, the scaled ratio is below `2^53`, and at least
`2^52` unless the exponent is the smallest one. -/
theorem ulpExp_bounds (p q : Nat) (hp : 0 < p) (hq : 0 < q) :
    (p : ℚ) / q / (2 : ℚ) ^ F64.ulpExp p q < 2 ^ 53 ∧
      (F64.ulpExp p q ≠ -1074 → (2 : ℚ) ^ 52 ≤ (p : ℚ) / q / (2 : ℚ) ^ F64.ulpExp p q) := by
  obtain ⟨hlo, hhi⟩ := ratio_bounds p q hp hq
  have h2 : (2 : ℚ) ≠ 0 := by norm_num
  set e0 : Int := (F64.bitLen p : Int) - (F64.bitLen q : Int) - 53 with he0
  have hlo0 : (2 : ℚ) ^ 52 < (p : ℚ) / q / (2 : ℚ) ^ e0 := by
    rw [lt_div_iff₀ (two_zpow_pos _)]
    have : (2 : ℚ) ^ 52 * (2 : ℚ) ^ e0 =
        (2 : ℚ) ^ ((F64.bitLen p : Int) - (F64.bitLen q : Int) - 1) := by
      rw [show ((2 : ℚ) ^ 52) = (2 : ℚ) ^ (52 : ℤ) by norm_cast, ← zpow_add₀ h2]
      congr 1
      omega
    rw [this]
    exact hlo
  have hhi0 : (p : ℚ) / q / (2 : ℚ) ^ e0 < 2 ^ 54 := by
    rw [div_lt_iff₀ (two_zpow_pos _)]
    have : (2 : ℚ) ^ 54 * (2 : ℚ) ^ e0 =
        (2 : ℚ) ^ ((F64.bitLen p : Int) - (F64.bitLen q : Int) + 1) := by
      rw [show ((2 : ℚ) ^ 54) = (2 : ℚ) ^ (54 : ℤ) by norm_cast, ← zpow_add₀ h2]
      congr 1
      omega
    rw [this]
    exact hhi
  have hstep : (2 : ℚ) ^ (e0 + 1) = (2 : ℚ) ^ e0 * 2 := by
    rw [zpow_add₀ h2, zpow_one]
  -- the exponent before clamping
  have hsel : ∃ e1 : Int, F64.ulpExp p q = max e1 (-1074) ∧
      (p : ℚ) / q / (2 : ℚ) ^ e1 < 2 ^ 53 ∧ (2 : ℚ) ^ 52 ≤ (p : ℚ) / q / (2 : ℚ) ^ e1 := by
    by_cases hc : F64.scaleNum p e0 / F64.scaleDen q e0 < 2 ^ 53
    · refine ⟨e0, ?_, ?_, hlo0.le⟩
      · unfold F64.ulpExp
        simp only
        rw [← he0, if_pos hc]
      · have := (natDiv_lt_iff _ _ (2 ^ 53) (scaleDen_pos q e0 hq)).1 hc
        rw [scale_ratio] at this
        exact_mod_cast this
    · refine ⟨e0 + 1, ?_, ?_, ?_⟩
      · unfold F64.ulpExp
        simp only
        rw [← he0, if_neg hc]
      · rw [hstep, ← div_div, div_lt_iff₀ (by norm_num : (0 : ℚ) < 2)]
        calc (p : ℚ) / q / (2 : ℚ) ^ e0 < 2 ^ 54 := hhi0
          _ = 2 ^ 53 * 2 := by norm_num
      · have hge : ¬ ((F64.scaleNum p e0 : ℕ) : ℚ) / (F64.scaleDen q e0 : ℕ) < ((2 ^ 53 : ℕ) : ℚ) :=
          fun h => hc ((natDiv_lt_iff _ _ (2 ^ 53) (scaleDen_pos q e0 hq)).2 h)
        rw [scale_ratio] at hge
        push_cast at hge
        rw [hstep, ← div_div, le_div_iff₀ (by norm_num : (0 : ℚ) < 2)]
        calc (2 : ℚ) ^ 52 * 2 = 2 ^ 53 := by norm_num
          _ ≤ (p : ℚ) / q / (2 : ℚ) ^ e0 := not_lt.1 hge
  obtain ⟨e1, he, hup, hdown⟩ := hsel
  rw [he]
  have hpq : (0 : ℚ) < (p : ℚ) / q := by positivity
  constructor
  · rcases le_total e1 (-1074) with h | h
    · rw [max_eq_right h]
      have hmono : (2 : ℚ) ^ e1 ≤ (2 : ℚ) ^ (-1074 : ℤ) :=
        zpow_le_zpow_right₀ (by norm_num) h
      calc (p : ℚ) / q / (2 : ℚ) ^ (-1074 : ℤ) ≤ (p : ℚ) / q / (2 : ℚ) ^ e1 :=
            div_le_div_of_nonneg_left hpq.le (two_zpow_pos _) hmono
        _ < 2 ^ 53 := hup
    · rw [max_eq_left h]
      exact hup
  · intro hne
    rcases le_total e1 (-1074) with h | h
    · rw [max_eq_right h] at hne
      exact absurd rfl hne
    · rw [max_eq_left h]
      exact hdown

/-- The value `roundCore` returns is the rounded significand at the exponent
`ulpExp`. -/
theorem roundCore_val (p q : Nat) (hp : 0 < p) :
    magVal (F64.roundCore p q).1 (F64.roundCore p q).2 =
      (F64.rne (F64.scaleNum p (F64.ulpExp p q)) (F64.scaleDen q (F64.ulpExp p q)) : ℚ) *
        (2 : ℚ) ^ F64.ulpExp p q := by
  unfold F64.roundCore magVal
  rw [if_neg (by omega)]
  simp only
  split_ifs with h
  · rw [h]
    simp only
    rw [zpow_add₀ (by norm_num : (2 : ℚ) ≠ 0), zpow_one]
    push_cast
    ring
  · rfl

/-- Round-to-nearest: no `M * 2^E` with a 53-bit `M` and `E ≥ -1074` is nearer to
`p / q` than the value `roundCore` returns. -/
theorem roundCore_nearest (p q : Nat) (hq : 0 < q) (M : Nat) (E : Int)
    (hM : M < 2 ^ 53) (hE : -1074 ≤ E) :
    |magVal (F64.roundCore p q).1 (F64.roundCore p q).2 - (p : ℚ) / q| ≤
      |magVal M E - (p : ℚ) / q| := by
  by_cases hp0 : p = 0
  · subst hp0
    simp [F64.roundCore, magVal]
  have hp : 0 < p := Nat.pos_of_ne_zero hp0
  have h2 : (2 : ℚ) ≠ 0 := by norm_num
  rw [roundCore_val p q hp]
  set e := F64.ulpExp p q with he
  set a := F64.scaleNum p e with ha
  set d := F64.scaleDen q e with hd
  have hdpos : 0 < d := scaleDen_pos q e hq
  have hy : (a : ℚ) / d = (p : ℚ) / q / (2 : ℚ) ^ e := scale_ratio p q e
  have hepos := two_zpow_pos e
  -- both distances, in units of the last place
  have hleft : |(F64.rne a d : ℚ) * (2 : ℚ) ^ e - (p : ℚ) / q| =
      |(F64.rne a d : ℚ) - a / d| * (2 : ℚ) ^ e := by
    rw [hy, ← abs_of_pos hepos, ← abs_mul, abs_of_pos hepos]
    congr 1
    field_simp
    ring
  have hright : |magVal M E - (p : ℚ) / q| =
      |(M : ℚ) * (2 : ℚ) ^ (E - e) - a / d| * (2 : ℚ) ^ e := by
    rw [hy, ← abs_of_pos hepos, ← abs_mul, abs_of_pos hepos]
    congr 1
    unfold magVal
    rw [zpow_sub₀ h2]
    field_simp
    ring
  rw [hleft, hright]
  apply mul_le_mul_of_nonneg_right _ hepos.le
  by_cases hEe : e ≤ E
  · -- the other value is a multiple of the last place
    have hn : (((E - e).toNat : ℕ) : ℤ) = E - e := Int.toNat_of_nonneg (by omega)
    have hz : (M : ℚ) * (2 : ℚ) ^ (E - e) = ((M * 2 ^ (E - e).toNat : ℕ) : ℤ) := by
      push_cast
      rw [← zpow_natCast, hn]
    rw [hz]
    exact rne_nearest a d hdpos _
  · -- the other value lies below `2^52` units
    have hne : e ≠ -1074 := by omega
    have hlow : (2 : ℚ) ^ 52 ≤ (a : ℚ) / d := by
      rw [hy]
      exact (ulpExp_bounds p q hp hq).2 hne
    have hsmall : (M : ℚ) * (2 : ℚ) ^ (E - e) < 2 ^ 52 := by
      have hM' : (M : ℚ) < 2 ^ 53 := by exact_mod_cast hM
      have hpow : (2 : ℚ) ^ (E - e) ≤ (2 : ℚ) ^ (-1 : ℤ) :=
        zpow_le_zpow_right₀ (by norm_num) (by omega)
      have hpos := two_zpow_pos (E - e)
      have hM0 : (0 : ℚ) ≤ M := by positivity
      calc (M : ℚ) * (2 : ℚ) ^ (E - e) ≤ M * (2 : ℚ) ^ (-1 : ℤ) :=
            mul_le_mul_of_nonneg_left hpow hM0
        _ < 2 ^ 53 * (2 : ℚ) ^ (-1 : ℤ) :=
            mul_lt_mul_of_pos_right hM' (two_zpow_pos _)
        _ = 2 ^ 52 := by norm_num
    have h1 := rne_nearest a d hdpos ((2 ^ 52 : ℕ) : ℤ)
    have h1' : |(F64.rne a d : ℚ) - a / d| ≤ (a : ℚ) / d - 2 ^ 52 := by
      have : |(((2 ^ 52 : ℕ) : ℤ) : ℚ) - (a : ℚ) / d| = (a : ℚ) / d - 2 ^ 52 := by
        rw [abs_sub_comm]
        push_cast
        exact abs_of_nonneg (by linarith)
      rw [this] at h1
      exact h1
    have h2' : (a : ℚ) / d - (M : ℚ) * (2 : ℚ) ^ (E - e) ≤
        |(M : ℚ) * (2 : ℚ) ^ (E - e) - a / d| := by
      rw [abs_sub_comm]
      exact le_abs_self _
    linarith

theorem rne_lt_of_lt (a d n : Nat) (hd : 0 < d) (h : (a : ℚ) / d < n) : F64.rne a d ≤ n := by
  obtain ⟨hk, -⟩ := rne_spec a d hd
  have h1 := (abs_le.1 hk).2
  have h2 : (F64.rne a d : ℚ) < n + 1 := by linarith
  have h3 : F64.rne a d < n + 1 := by exact_mod_cast h2
  omega

theorem le_rne_of_le (a d n : Nat) (hd : 0 < d) (h : (n : ℚ) ≤ (a : ℚ) / d) :
    n ≤ F64.rne a d := by
  obtain ⟨hk, -⟩ := rne_spec a d hd
  have h1 := (abs_le.1 hk).1
  have h2 : (n : ℚ) < F64.rne a d + 1 := by linarith
  have h3 : n < F64.rne a d + 1 := by exact_mod_cast h2
  omega

/-- The significand and exponent `roundCore` returns are in normal form. -/
theorem roundCore_shape (p q : Nat) (hq : 0 < q) :
    (F64.roundCore p q).1 < 2 ^ 53 ∧ -1074 ≤ (F64.roundCore p q).2 ∧
      (2 ^ 52 ≤ (F64.roundCore p q).1 ∨ (F64.roundCore p q).2 = -1074) := by
  by_cases hp0 : p = 0
  · subst hp0
    simp [F64.roundCore]
  have hp : 0 < p := Nat.pos_of_ne_zero hp0
  obtain ⟨hup, hdown⟩ := ulpExp_bounds p q hp hq
  have hge := ulpExp_ge p q
  have hdpos := scaleDen_pos q (F64.ulpExp p q) hq
  have hle : F64.rne (F64.scaleNum p (F64.ulpExp p q)) (F64.scaleDen q (F64.ulpExp p q)) ≤
      2 ^ 53 := by
    apply rne_lt_of_lt _ _ _ hdpos
    rw [scale_ratio]
    exact_mod_cast hup
  unfold F64.roundCore
  rw [if_neg hp0]
  simp only
  split_ifs with h
  · simp only
    refine ⟨by norm_num, by omega, Or.inl le_rfl⟩
  · simp only
    refine ⟨by omega, hge, ?_⟩
    by_cases hne : F64.ulpExp p q = -1074
    · exact Or.inr hne
    · left
      apply le_rne_of_le _ _ _ hdpos
      rw [scale_ratio]
      exact_mod_cast hdown hne

theorem roundMag_some (p q m : Nat) (e : Int) (h : F64.roundMag p q = some (m, e)) :
    F64.roundCore p q = (m, e) ∧ e ≤ 971 := by
  unfold F64.roundMag at h
  by_cases hc : (F64.roundCore p q).2 > 971
  · rw [if_pos hc] at h
    cases h
  · rw [if_neg hc] at h
    have h' := Option.some.inj h
    rw [h'] at hc
    exact ⟨h', by simpa using hc⟩

theorem roundMag_isBinary64 (neg : Bool) (p q m : Nat) (e : Int) (hq : 0 < q)
    (h : F64.roundMag p q = some (m, e)) : (F64.fin neg m e).IsBinary64 := by
  obtain ⟨h1, h2, h3⟩ := roundCore_shape p q hq
  obtain ⟨hc, he⟩ := roundMag_some p q m e h
  rw [hc] at h1 h2 h3
  exact ⟨h1, h2, he, h3⟩

/-- Every value `ofRatio` returns is a binary64 value. -/
theorem ofRatio_isBinary64 (neg : Bool) (p q : Nat) (hq : 0 < q) :
    (F64.ofRatio neg p q).IsBinary64 := by
  unfold F64.ofRatio
  cases h : F64.roundMag p q with
  | none => exact True.intro
  | some me =>
    obtain ⟨m, e⟩ := me
    exact roundMag_isBinary64 neg p q m e hq h

/-- Products of binary64 values are binary64 values. -/
theorem mul_isBinary64 (a b : F64) : (F64.mul a b).IsBinary64 := by
  rcases a with _ | s | ⟨s, m₁, e₁⟩ <;> rcases b with _ | t | ⟨t, m₂, e₂⟩
  · exact True.intro
  · exact True.intro
  · exact True.intro
  · exact True.intro
  · exact True.intro
  · show (if m₂ = 0 then F64.nan else F64.inf (xor s t)).IsBinary64
    split_ifs <;> exact True.intro
  · exact True.intro
  · show (if m₁ = 0 then F64.nan else F64.inf (xor s t)).IsBinary64
    split_ifs <;> exact True.intro
  · exact ofRatio_isBinary64 _ _ _ (scaleDen_pos 1 _ (by norm_num))

/-- Quotients of binary64 values are binary64 values. -/
theorem div_isBinary64 (a b : F64) : (F64.div a b).IsBinary64 := by
  rcases a with _ | s | ⟨s, m₁, e₁⟩ <;> rcases b with _ | t | ⟨t, m₂, e₂⟩
  · exact True.intro
  · exact True.intro
  · exact True.intro
  · exact True.intro
  · exact True.intro
  · exact True.intro
  · exact True.intro
  · exact ⟨by norm_num, le_rfl, by norm_num, Or.inr rfl⟩
  · show (if m₂ = 0 then (if m₁ = 0 then F64.nan else F64.inf (xor s t))
      else F64.ofRatio (xor s t) (F64.scaleNum m₁ (e₂ - e₁))
        (F64.scaleDen m₂ (e₂ - e₁))).IsBinary64
    split_ifs with h1 h2
    · exact True.intro
    · exact True.intro
    · exact ofRatio_isBinary64 _ _ _ (scaleDen_pos _ _ (Nat.pos_of_ne_zero h1))

theorem specialInf_isBinary64 (neg : Bool) (k : Nat) (s : GoStr) (v : F64) (n : Nat)
    (h : specialInf neg k s = some (v, n)) : v.IsBinary64 := by
  unfold specialInf at h
  simp only at h
  split_ifs at h
  all_goals
    cases h
    exact True.intro

theorem special_isBinary64 (s : GoStr) (v : F64) (n : Nat) (h : special s = some (v, n)) :
    v.IsBinary64 := by
  cases s with
  | nil => cases h
  | cons c cs =>
    simp only [special] at h
    split_ifs at h
    · exact specialInf_isBinary64 _ _ _ _ _ h
    · exact specialInf_isBinary64 _ _ _ _ _ h
    · exact specialInf_isBinary64 _ _ _ _ _ h
    · cases h
      exact True.intro

theorem roundScanned_isBinary64 (hex neg : Bool) (mant : Nat) (exp : Int) (m : Nat) (e : Int)
    (h : roundScanned hex mant exp = some (m, e)) : (F64.fin neg m e).IsBinary64 := by
  unfold roundScanned at h
  split_ifs at h
  · exact roundMag_isBinary64 neg _ _ m e (scaleDen_pos 1 _ (by norm_num)) h
  · exact roundMag_isBinary64 neg _ _ m e (by positivity) h
  · exact roundMag_isBinary64 neg _ _ m e (by norm_num) h

/-- Every value `ParseFloat` returns is a binary64 value. -/
theorem ParseFloat_isBinary64 (s : GoStr) (v : F64) (h : ParseFloat s = .ok v) :
    v.IsBinary64 := by
  unfold ParseFloat at h
  cases hsp : special s with
  | some vn =>
    obtain ⟨w, n⟩ := vn
    rw [hsp] at h
    simp only at h
    split_ifs at h
    cases h
    exact special_isBinary64 s _ n hsp
  | none =>
    rw [hsp] at h
    simp only at h
    cases hr : readFloat s with
    | none =>
      rw [hr] at h
      cases h
    | some r =>
      rw [hr] at h
      simp only at h
      split_ifs at h
      cases hrs : roundScanned r.hex r.mant r.exp with
      | none =>
        rw [hrs] at h
        cases h
      | some me =>
        obtain ⟨m, e⟩ := me
        rw [hrs] at h
        cases h
        exact roundScanned_isBinary64 _ _ _ _ _ _ hrs

/-! ## Overflow -/

theorem magVal_ge_of_overflow (m : Nat) (e : Int) (hm : 2 ^ 52 ≤ m) (he : 971 < e) :
    (2 : ℚ) ^ 1024 ≤ magVal m e := by
  have hm' : (2 : ℚ) ^ 52 ≤ m := by exact_mod_cast hm
  have hpow : (2 : ℚ) ^ (972 : ℤ) ≤ (2 : ℚ) ^ e :=
    zpow_le_zpow_right₀ (by norm_num) (by omega)
  have h972 : (2 : ℚ) ^ (972 : ℤ) = 2 ^ 972 := by norm_cast
  unfold magVal
  calc (2 : ℚ) ^ 1024 = 2 ^ 52 * 2 ^ 972 := by rw [← pow_add]
    _ ≤ m * (2 : ℚ) ^ e := by
      rw [← h972]
      exact mul_le_mul hm' hpow (two_zpow_pos _).le (by positivity)

theorem magVal_le_of_finite (m : Nat) (e : Int) (hm : m < 2 ^ 53) (he : e ≤ 971) :
    magVal m e ≤ (2 : ℚ) ^ 1024 - 2 ^ 971 := by
  have hm' : (m : ℚ) ≤ 2 ^ 53 - 1 := by
    have : m ≤ 2 ^ 53 - 1 := by omega
    have h2 : ((m : ℕ) : ℚ) ≤ ((2 ^ 53 - 1 : ℕ) : ℚ) := by exact_mod_cast this
    rw [Nat.cast_sub (by norm_num)] at h2
    push_cast at h2
    exact h2
  have hpow : (2 : ℚ) ^ e ≤ (2 : ℚ) ^ (971 : ℤ) :=
    zpow_le_zpow_right₀ (by norm_num) he
  have h971 : (2 : ℚ) ^ (971 : ℤ) = 2 ^ 971 := by norm_cast
  unfold magVal
  calc (m : ℚ) * (2 : ℚ) ^ e ≤ (2 ^ 53 - 1) * 2 ^ 971 := by
        rw [← h971]
        exact mul_le_mul hm' hpow (two_zpow_pos _).le (by norm_num)
    _ = (2 : ℚ) ^ 1024 - 2 ^ 971 := by
        rw [sub_mul, one_mul, ← pow_add]

theorem pow_971_eq : (2 : ℚ) ^ 971 = 2 * 2 ^ 970 := by
  rw [← pow_succ']

/-- A ratio below the overflow threshold rounds to a finite value. -/
theorem roundMag_ne_none (p q : Nat) (hq : 0 < q) (hx : (p : ℚ) / q < overflowThreshold) :
    F64.roundMag p q ≠ none := by
  intro hnone
  unfold F64.roundMag at hnone
  by_cases hc : (F64.roundCore p q).2 > 971
  swap
  · rw [if_neg hc] at hnone
    cases hnone
  obtain ⟨h1, h2, h3⟩ := roundCore_shape p q hq
  have hm : 2 ^ 52 ≤ (F64.roundCore p q).1 := by
    rcases h3 with h3 | h3
    · exact h3
    · omega
  have hbig := magVal_ge_of_overflow _ _ hm hc
  have hnear := roundCore_nearest p q hq (2 ^ 53 - 1) 971 (by norm_num) (by norm_num)
  have hmax := magVal_le_of_finite (2 ^ 53 - 1) 971 (by norm_num) le_rfl
  have hmaxeq : magVal (2 ^ 53 - 1) 971 = (2 : ℚ) ^ 1024 - 2 ^ 971 := by
    unfold magVal
    rw [show (2 : ℚ) ^ (971 : ℤ) = 2 ^ 971 by norm_cast]
    norm_num
  unfold overflowThreshold at hx
  have h971 := pow_971_eq
  have hA : (0 : ℚ) < 2 ^ 970 := by positivity
  rw [hmaxeq] at hnear
  have hl : |magVal (F64.roundCore p q).1 (F64.roundCore p q).2 - (p : ℚ) / q| =
      magVal (F64.roundCore p q).1 (F64.roundCore p q).2 - (p : ℚ) / q :=
    abs_of_nonneg (by linarith)
  rw [hl] at hnear
  rcases abs_cases ((2 : ℚ) ^ 1024 - 2 ^ 971 - (p : ℚ) / q) with ⟨h, -⟩ | ⟨h, -⟩ <;>
    rw [h] at hnear <;> linarith

/-- A ratio above the overflow threshold overflows. -/
theorem roundMag_eq_none (p q : Nat) (hq : 0 < q) (hx : overflowThreshold < (p : ℚ) / q) :
    F64.roundMag p q = none := by
  unfold F64.roundMag
  by_cases hc : (F64.roundCore p q).2 > 971
  · rw [if_pos hc]
  exfalso
  obtain ⟨h1, h2, h3⟩ := roundCore_shape p q hq
  have hsmall := magVal_le_of_finite _ _ h1 (by omega : (F64.roundCore p q).2 ≤ 971)
  have hnear := roundCore_nearest p q hq (2 ^ 52) 972 (by norm_num) (by norm_num)
  have htop : magVal (2 ^ 52) 972 = (2 : ℚ) ^ 1024 := by
    unfold magVal
    rw [show (2 : ℚ) ^ (972 : ℤ) = 2 ^ 972 by norm_cast]
    norm_num
  unfold overflowThreshold at hx
  have h971 := pow_971_eq
  have hA : (0 : ℚ) < 2 ^ 970 := by positivity
  rw [htop] at hnear
  have hl : |magVal (F64.roundCore p q).1 (F64.roundCore p q).2 - (p : ℚ) / q| =
      (p : ℚ) / q - magVal (F64.roundCore p q).1 (F64.roundCore p q).2 := by
    rw [abs_sub_comm]
    exact abs_of_nonneg (by linarith)
  rw [hl] at hnear
  rcases abs_cases ((2 : ℚ) ^ 1024 - (p : ℚ) / q) with ⟨h, -⟩ | ⟨h, -⟩ <;>
    rw [h] at hnear <;> linarith

theorem threshold_ulpExp (p q : Nat) (hp : 0 < p) (hq : 0 < q)
    (hx : (p : ℚ) / q = overflowThreshold) : F64.ulpExp p q = 971 := by
  obtain ⟨hup, hdown⟩ := ulpExp_bounds p q hp hq
  have hge := ulpExp_ge p q
  rw [hx] at hup hdown
  unfold overflowThreshold at hup hdown
  have h2 : (2 : ℚ) ≠ 0 := by norm_num
  have h1024 : (2 : ℚ) ^ 1024 = 2 ^ 54 * 2 ^ 970 := by rw [← pow_add]
  have hA : (0 : ℚ) < 2 ^ 970 := by positivity
  by_contra hne
  rcases lt_or_gt_of_ne hne with hlt | hgt
  · -- the exponent is at most 970: the scaled ratio is at least `2^54 - 1`
    have hpow : (2 : ℚ) ^ F64.ulpExp p q ≤ (2 : ℚ) ^ (970 : ℤ) :=
      zpow_le_zpow_right₀ (by norm_num) (by omega)
    rw [show (2 : ℚ) ^ (970 : ℤ) = 2 ^ 970 by norm_cast] at hpow
    rw [div_lt_iff₀ (two_zpow_pos _)] at hup
    have : (2 : ℚ) ^ 53 * (2 : ℚ) ^ F64.ulpExp p q ≤ 2 ^ 53 * 2 ^ 970 :=
      mul_le_mul_of_nonneg_left hpow (by positivity)
    rw [h1024] at hup
    nlinarith
  · -- the exponent is at least 972: the scaled ratio is below `2^52`
    have hpow : (2 : ℚ) ^ (972 : ℤ) ≤ (2 : ℚ) ^ F64.ulpExp p q :=
      zpow_le_zpow_right₀ (by norm_num) (by omega)
    rw [show (2 : ℚ) ^ (972 : ℤ) = 2 ^ 972 by norm_cast,
      show (2 : ℚ) ^ 972 = 4 * 2 ^ 970 by rw [show (4 : ℚ) = 2 ^ 2 by norm_num, ← pow_add]]
      at hpow
    have hd := hdown (by omega)
    rw [le_div_iff₀ (two_zpow_pos _)] at hd
    have : (2 : ℚ) ^ 52 * (4 * 2 ^ 970) ≤ 2 ^ 52 * (2 : ℚ) ^ F64.ulpExp p q :=
      mul_le_mul_of_nonneg_left hpow (by positivity)
    rw [h1024] at hd
    nlinarith

/-- A ratio exactly at the overflow threshold is a tie, and rounds to the even
side, beyond the largest finite value. -/
theorem roundMag_threshold (p q : Nat) (hq : 0 < q)
    (hx : (p : ℚ) / q = overflowThreshold) : F64.roundMag p q = none := by
  have hT : (0 : ℚ) < overflowThreshold := by
    unfold overflowThreshold
    have h1024 : (2 : ℚ) ^ 1024 = 2 ^ 54 * 2 ^ 970 := by rw [← pow_add]
    have hA : (0 : ℚ) < 2 ^ 970 := by positivity
    rw [h1024]
    nlinarith
  have hp : 0 < p := by
    rcases Nat.eq_zero_or_pos p with h0 | h0
    · rw [h0] at hx
      simp only [Nat.cast_zero, zero_div] at hx
      rw [← hx] at hT
      exact absurd hT (lt_irrefl _)
    · exact h0
  have he := threshold_ulpExp p q hp hq hx
  have hk : F64.rne (F64.scaleNum p 971) (F64.scaleDen q 971) = 2 ^ 53 := by
    have hy : ((F64.scaleNum p 971 : ℕ) : ℚ) / (F64.scaleDen q 971 : ℕ) = 2 ^ 53 - 1 / 2 := by
      rw [scale_ratio, hx]
      unfold overflowThreshold
      rw [show (2 : ℚ) ^ (971 : ℤ) = 2 ^ 971 by norm_cast, sub_div,
        show (2 : ℚ) ^ 1024 = 2 ^ 53 * 2 ^ 971 by rw [← pow_add], pow_971_eq]
      have hA : (2 : ℚ) ^ 970 ≠ 0 := by positivity
      field_simp
      ring
    have habs : |((2 ^ 53 : ℕ) : ℚ) - ((F64.scaleNum p 971 : ℕ) : ℚ) / (F64.scaleDen q 971 : ℕ)| =
        1 / 2 := by
      rw [hy]
      norm_num
    exact rne_unique _ _ (2 ^ 53) (scaleDen_pos q 971 hq) habs.le (fun _ => by norm_num)
  have hcore : F64.roundCore p q = (2 ^ 52, 972) := by
    unfold F64.roundCore
    rw [if_neg (by omega)]
    simp only [he, hk, if_true]
    norm_num
  unfold F64.roundMag
  rw [hcore]
  rfl

/-- Overflow happens exactly from the threshold on. -/
theorem roundMag_none_iff (p q : Nat) (hq : 0 < q) :
    F64.roundMag p q = none ↔ overflowThreshold ≤ (p : ℚ) / q := by
  constructor
  · intro h
    by_contra hlt
    exact roundMag_ne_none p q hq (not_le.1 hlt) h
  · intro h
    rcases lt_or_eq_of_le h with hlt | heq
    · exact roundMag_eq_none p q hq hlt
    · exact roundMag_threshold p q hq heq.symm

/-! ## Division and multiplication are the IEEE 754 operations -/

/-- Ties to even: when another representable value is just as near to `p / q` as
the value `roundCore` returns, the significand returned is even. -/
theorem roundCore_tie_even (p q : Nat) (hq : 0 < q) (M : Nat) (E : Int)
    (hM : M < 2 ^ 53) (hE : -1074 ≤ E)
    (hne : magVal M E ≠ magVal (F64.roundCore p q).1 (F64.roundCore p q).2)
    (htie : |magVal M E - (p : ℚ) / q| =
      |magVal (F64.roundCore p q).1 (F64.roundCore p q).2 - (p : ℚ) / q|) :
    (F64.roundCore p q).1 % 2 = 0 := by
  by_cases hp0 : p = 0
  · subst hp0
    simp [F64.roundCore]
  have hp : 0 < p := Nat.pos_of_ne_zero hp0
  have h2 : (2 : ℚ) ≠ 0 := by norm_num
  rw [roundCore_val p q hp] at hne htie
  have hcore : (F64.roundCore p q).1 = 2 ^ 52 ∨ (F64.roundCore p q).1 =
      F64.rne (F64.scaleNum p (F64.ulpExp p q)) (F64.scaleDen q (F64.ulpExp p q)) := by
    unfold F64.roundCore
    rw [if_neg hp0]
    simp only
    split_ifs
    · exact Or.inl rfl
    · exact Or.inr rfl
  rcases hcore with hc | hc
  · rw [hc]
    norm_num
  rw [hc]
  set e := F64.ulpExp p q with he
  set a := F64.scaleNum p e with ha
  set d := F64.scaleDen q e with hd
  have hdpos : 0 < d := scaleDen_pos q e hq
  have hy : (a : ℚ) / d = (p : ℚ) / q / (2 : ℚ) ^ e := scale_ratio p q e
  have hepos := two_zpow_pos e
  have hleft : |(F64.rne a d : ℚ) * (2 : ℚ) ^ e - (p : ℚ) / q| =
      |(F64.rne a d : ℚ) - a / d| * (2 : ℚ) ^ e := by
    rw [hy, ← abs_of_pos hepos, ← abs_mul, abs_of_pos hepos]
    congr 1
    field_simp
    ring
  have hright : |magVal M E - (p : ℚ) / q| =
      |(M : ℚ) * (2 : ℚ) ^ (E - e) - a / d| * (2 : ℚ) ^ e := by
    rw [hy, ← abs_of_pos hepos, ← abs_mul, abs_of_pos hepos]
    congr 1
    unfold magVal
    rw [zpow_sub₀ h2]
    field_simp
    ring
  rw [hleft, hright] at htie
  have hunits : |(M : ℚ) * (2 : ℚ) ^ (E - e) - a / d| = |(F64.rne a d : ℚ) - a / d| :=
    mul_right_cancel₀ hepos.ne' htie
  have hval : magVal M E = (M : ℚ) * (2 : ℚ) ^ (E - e) * (2 : ℚ) ^ e := by
    unfold magVal
    rw [mul_assoc, ← zpow_add₀ h2]
    congr 2
    ring
  obtain ⟨hk, hktie⟩ := rne_spec a d hdpos
  by_cases hEe : e ≤ E
  · have hn : (((E - e).toNat : ℕ) : ℤ) = E - e := Int.toNat_of_nonneg (by omega)
    have hz : (M : ℚ) * (2 : ℚ) ^ (E - e) = ((M * 2 ^ (E - e).toNat : ℕ) : ℚ) := by
      push_cast
      rw [← zpow_natCast, hn]
    set z := M * 2 ^ (E - e).toNat with hzdef
    rw [hz] at hunits
    have hzk : z ≠ F64.rne a d := by
      intro h
      apply hne
      rw [hval, hz, h]
    have hdist : (1 : ℚ) ≤ |(z : ℚ) - (F64.rne a d : ℕ)| := by
      have h1 : (1 : ℤ) ≤ |(z : ℤ) - (F64.rne a d : ℤ)| := by
        have : (z : ℤ) - (F64.rne a d : ℤ) ≠ 0 := by
          intro h
          apply hzk
          omega
        have := abs_pos.2 this
        omega
      have : ((1 : ℤ) : ℚ) ≤ ((|(z : ℤ) - (F64.rne a d : ℤ)| : ℤ) : ℚ) := by exact_mod_cast h1
      push_cast at this
      exact this
    have htri := abs_sub_le (z : ℚ) (a / d) (F64.rne a d : ℕ)
    rw [abs_sub_comm ((a : ℚ) / d) _, hunits] at htri
    exact hktie (by linarith)
  · exfalso
    have hne' : e ≠ -1074 := by omega
    have hlow : (2 : ℚ) ^ 52 ≤ (a : ℚ) / d := by
      rw [hy]
      exact (ulpExp_bounds p q hp hq).2 hne'
    have hsmall : (M : ℚ) * (2 : ℚ) ^ (E - e) < 2 ^ 52 := by
      have hM' : (M : ℚ) < 2 ^ 53 := by exact_mod_cast hM
      have hpow : (2 : ℚ) ^ (E - e) ≤ (2 : ℚ) ^ (-1 : ℤ) :=
        zpow_le_zpow_right₀ (by norm_num) (by omega)
      have hM0 : (0 : ℚ) ≤ M := by positivity
      calc (M : ℚ) * (2 : ℚ) ^ (E - e) ≤ M * (2 : ℚ) ^ (-1 : ℤ) :=
            mul_le_mul_of_nonneg_left hpow hM0
        _ < 2 ^ 53 * (2 : ℚ) ^ (-1 : ℤ) :=
            mul_lt_mul_of_pos_right hM' (two_zpow_pos _)
        _ = 2 ^ 52 := by norm_num
    have h1 := rne_nearest a d hdpos ((2 ^ 52 : ℕ) : ℤ)
    have h1' : |(F64.rne a d : ℚ) - a / d| ≤ (a : ℚ) / d - 2 ^ 52 := by
      have : |(((2 ^ 52 : ℕ) : ℤ) : ℚ) - (a : ℚ) / d| = (a : ℚ) / d - 2 ^ 52 := by
        rw [abs_sub_comm]
        push_cast
        exact abs_of_nonneg (by linarith)
      rw [this] at h1
      exact h1
    have h2' : |(M : ℚ) * (2 : ℚ) ^ (E - e) - a / d| =
        (a : ℚ) / d - (M : ℚ) * (2 : ℚ) ^ (E - e) := by
      rw [abs_sub_comm]
      exact abs_of_nonneg (by linarith)
    rw [h2'] at hunits
    linarith

/-- The value `ofRatio` returns is `p / q` rounded to nearest, ties to even. -/
theorem ofRatio_isRounded (neg : Bool) (p q : Nat) (hq : 0 < q) :
    IsRounded neg ((p : ℚ) / q) (F64.ofRatio neg p q) := by
  constructor
  · intro hx
    have hnone := (roundMag_none_iff p q hq).2 hx
    unfold F64.ofRatio
    rw [hnone]
  · intro hx
    have hsome := roundMag_ne_none p q hq hx
    cases hr : F64.roundMag p q with
    | none => exact absurd hr hsome
    | some me =>
      obtain ⟨m, e⟩ := me
      obtain ⟨hcore, -⟩ := roundMag_some p q m e hr
      refine ⟨m, e, ?_, roundMag_isBinary64 neg p q m e hq hr, ?_, ?_⟩
      · unfold F64.ofRatio
        rw [hr]
      · intro M E hM hE
        have h := roundCore_nearest p q hq M E hM hE
        rw [hcore] at h
        exact h
      · intro M E hM hE hne htie
        have h := roundCore_tie_even p q hq M E hM hE
        rw [hcore] at h
        exact h hne htie

theorem magVal_pos (m : Nat) (e : Int) (hm : m ≠ 0) : 0 < magVal m e := by
  unfold magVal
  have : (0 : ℚ) < m := by exact_mod_cast Nat.pos_of_ne_zero hm
  exact mul_pos this (two_zpow_pos e)

/-- `F64.div` is IEEE 754 division: for every divisor other than zero it returns
the quotient `IsQuotient` describes. -/
theorem div_isQuotient (a b : F64) (hb : b.isZero = false) :
    IsQuotient a b (F64.div a b) := by
  rcases a with _ | s | ⟨s, m₁, e₁⟩ <;> rcases b with _ | t | ⟨t, m₂, e₂⟩
  · rfl
  · rfl
  · rfl
  · rfl
  · rfl
  · rfl
  · rfl
  · rfl
  · have hm : m₂ ≠ 0 := by
      simpa [F64.isZero] using hb
    show IsRounded (xor s t) (magVal m₁ e₁ / magVal m₂ e₂) (F64.div (F64.fin s m₁ e₁)
      (F64.fin t m₂ e₂))
    have hdiv : F64.div (F64.fin s m₁ e₁) (F64.fin t m₂ e₂) =
        F64.ofRatio (xor s t) (F64.scaleNum m₁ (e₂ - e₁)) (F64.scaleDen m₂ (e₂ - e₁)) := by
      show (if m₂ = 0 then _ else _) = _
      rw [if_neg hm]
    have hratio : ((F64.scaleNum m₁ (e₂ - e₁) : ℕ) : ℚ) / (F64.scaleDen m₂ (e₂ - e₁) : ℕ) =
        magVal m₁ e₁ / magVal m₂ e₂ := by
      rw [scale_ratio]
      unfold magVal
      rw [zpow_sub₀ (by norm_num : (2 : ℚ) ≠ 0)]
      have h1 : (m₂ : ℚ) ≠ 0 := by exact_mod_cast hm
      have h2 := (two_zpow_pos e₁).ne'
      have h3 := (two_zpow_pos e₂).ne'
      field_simp
    rw [hdiv, ← hratio]
    exact ofRatio_isRounded _ _ _ (scaleDen_pos _ _ (Nat.pos_of_ne_zero hm))

/-- `F64.mul` is IEEE 754 multiplication. -/
theorem mul_isProduct (a b : F64) : IsProduct a b (F64.mul a b) := by
  rcases a with _ | s | ⟨s, m₁, e₁⟩ <;> rcases b with _ | t | ⟨t, m₂, e₂⟩
  · rfl
  · rfl
  · rfl
  · rfl
  · rfl
  · rfl
  · rfl
  · rfl
  · show IsRounded (xor s t) (magVal m₁ e₁ * magVal m₂ e₂)
      (F64.ofRatio (xor s t) (F64.scaleNum (m₁ * m₂) (-(e₁ + e₂)))
        (F64.scaleDen 1 (-(e₁ + e₂))))
    have hratio : ((F64.scaleNum (m₁ * m₂) (-(e₁ + e₂)) : ℕ) : ℚ) /
        (F64.scaleDen 1 (-(e₁ + e₂)) : ℕ) = magVal m₁ e₁ * magVal m₂ e₂ := by
      rw [scale_ratio]
      unfold magVal
      rw [zpow_neg, zpow_add₀ (by norm_num : (2 : ℚ) ≠ 0)]
      have h2 := (two_zpow_pos e₁).ne'
      have h3 := (two_zpow_pos e₂).ne'
      push_cast
      field_simp
      ring
    rw [← hratio]
    exact ofRatio_isRounded _ _ _ (scaleDen_pos 1 _ (by norm_num))

/-! ## The hundredths printed by `%.2f` -/

theorem hundredths_ratio (s : Bool) (m : Nat) (e : Int) :
    hundredths (F64.fin s m e) =
      F64.rne (F64.scaleNum (m * 100) (-e)) (F64.scaleDen 1 (-e)) := rfl

theorem hundredths_scaled (m : Nat) (e : Int) :
    ((F64.scaleNum (m * 100) (-e) : ℕ) : ℚ) / (F64.scaleDen 1 (-e) : ℕ) = 100 * magVal m e := by
  rw [scale_ratio]
  unfold magVal
  rw [zpow_neg]
  push_cast
  field_simp
  ring

/-- The hundredths `%.2f` prints are within one half of a hundredth of the value. -/
theorem hundredths_spec (s : Bool) (m : Nat) (e : Int) :
    |(hundredths (F64.fin s m e) : ℚ) - 100 * magVal m e| ≤ 1 / 2 ∧
      (|(hundredths (F64.fin s m e) : ℚ) - 100 * magVal m e| = 1 / 2 →
        hundredths (F64.fin s m e) % 2 = 0) := by
  rw [hundredths_ratio, ← hundredths_scaled]
  exact rne_spec _ _ (scaleDen_pos 1 _ (by norm_num))

/-- Rounding to hundredths, then to binary64, then to hundredths again gives the
same hundredths. -/
theorem hundredths_stable (s t : Bool) (m : Nat) (e : Int) (hm : m < 2 ^ 53)
    (he : -1074 ≤ e) :
    hundredths (F64.fin t (F64.roundCore (hundredths (F64.fin s m e)) 100).1
        (F64.roundCore (hundredths (F64.fin s m e)) 100).2) =
      hundredths (F64.fin s m e) := by
  obtain ⟨hn, hntie⟩ := hundredths_spec s m e
  set n := hundredths (F64.fin s m e) with hndef
  have hnear := roundCore_nearest n 100 (by norm_num) m e hm he
  set m' := (F64.roundCore n 100).1
  set e' := (F64.roundCore n 100).2
  have hle : |(n : ℚ) - 100 * magVal m' e'| ≤ |(n : ℚ) - 100 * magVal m e| := by
    have h1 : |(n : ℚ) - 100 * magVal m' e'| = 100 * |magVal m' e' - (n : ℚ) / ((100 : ℕ) : ℚ)| := by
      rw [abs_sub_comm, ← abs_of_pos (by norm_num : (0 : ℚ) < 100), ← abs_mul,
        abs_of_pos (by norm_num : (0 : ℚ) < 100)]
      congr 1
      push_cast
      ring
    have h2 : |(n : ℚ) - 100 * magVal m e| = 100 * |magVal m e - (n : ℚ) / ((100 : ℕ) : ℚ)| := by
      rw [abs_sub_comm, ← abs_of_pos (by norm_num : (0 : ℚ) < 100), ← abs_mul,
        abs_of_pos (by norm_num : (0 : ℚ) < 100)]
      congr 1
      push_cast
      ring
    rw [h1, h2]
    exact mul_le_mul_of_nonneg_left hnear (by norm_num)
  rw [hundredths_ratio]
  apply rne_unique _ _ n (scaleDen_pos 1 _ (by norm_num))
  · rw [hundredths_scaled]
    exact le_trans hle hn
  · rw [hundredths_scaled]
    intro htie
    apply hntie
    apply le_antisymm hn
    rw [← htie]
    exact hle

/-! ## White space and comma replacement -/

theorem isSpace_of_isDigit (c : Char) (h : isDigit c = true) : isSpace c = false := by
  have := isDigit_toNat c h
  simp only [isSpace, Bool.or_eq_false_iff, Bool.and_eq_false_iff, decide_eq_false_iff_not,
    beq_eq_false_iff_ne, ne_eq]
  omega

theorem dropWhile_spaces (ws : GoStr) (a : Char) (t : GoStr)
    (hws : ∀ c ∈ ws, isSpace c = true) (ha : isSpace a = false) :
    (ws ++ a :: t).dropWhile isSpace = a :: t := by
  induction ws with
  | nil => simp [List.dropWhile, ha]
  | cons w r ih =>
    have hw : isSpace w = true := hws w (List.mem_cons_self _ _)
    simp only [List.cons_append, List.dropWhile, hw]
    exact ih (fun c hc => hws c (List.mem_cons_of_mem _ hc))

/-- `TrimSpace` removes surrounding white space and nothing else. -/
theorem TrimSpace_surrounded (ws₁ core ws₂ : GoStr) (a z : Char) (mid : GoStr)
    (hws₁ : ∀ c ∈ ws₁, isSpace c = true) (hws₂ : ∀ c ∈ ws₂, isSpace c = true)
    (hcore : core = a :: mid) (hlast : core.reverse.head? = some z)
    (ha : isSpace a = false) (hz : isSpace z = false) :
    TrimSpace (ws₁ ++ core ++ ws₂) = core := by
  unfold TrimSpace
  have h1 : (ws₁ ++ core ++ ws₂).dropWhile isSpace = core ++ ws₂ := by
    rw [hcore, List.append_assoc, List.cons_append]
    exact dropWhile_spaces ws₁ a (mid ++ ws₂) hws₁ ha
  rw [h1, List.reverse_append]
  obtain ⟨r, hr⟩ : ∃ r, core.reverse = z :: r := by
    cases hc : core.reverse with
    | nil => rw [hc] at hlast; cases hlast
    | cons y r =>
      rw [hc] at hlast
      simp only [List.head?_cons, Option.some.injEq] at hlast
      exact ⟨r, by rw [hlast]⟩
  rw [hr, dropWhile_spaces ws₂.reverse z r (fun c hc => hws₂ c (List.mem_reverse.1 hc)) hz,
    ← hr, List.reverse_reverse]

theorem ReplaceAll_append (xs ys : GoStr) (old : Char) (new : GoStr) :
    ReplaceAll (xs ++ ys) old new = ReplaceAll xs old new ++ ReplaceAll ys old new := by
  induction xs with
  | nil => rfl
  | cons x t ih =>
    show ReplaceAll (x :: (t ++ ys)) old new = _
    simp only [ReplaceAll, ih, List.append_assoc]

theorem ReplaceAll_absent (xs : GoStr) (old : Char) (new : GoStr) (h : ∀ c ∈ xs, c ≠ old) :
    ReplaceAll xs old new = xs := by
  induction xs with
  | nil => rfl
  | cons x t ih =>
    have hx : x ≠ old := h x (List.mem_cons_self _ _)
    simp only [ReplaceAll, if_neg hx, ih (fun c hc => h c (List.mem_cons_of_mem _ hc)),
      List.singleton_append]

theorem digits_no_comma (ds : GoStr) (h : ∀ c ∈ ds, isDigit c = true) :
    ∀ c ∈ ds, c ≠ ',' :=
  fun c hc => isDigit_ne c ',' (h c hc) (Or.inl (by decide))

/-- Trimming and comma replacement on a comma-decimal text. -/
theorem normalise_comma_decimal (ws₁ ds fs ws₂ : GoStr)
    (hws₁ : ∀ c ∈ ws₁, isSpace c = true) (hws₂ : ∀ c ∈ ws₂, isSpace c = true)
    (hds : ds ≠ []) (hfs : fs ≠ [])
    (hd : ∀ c ∈ ds, isDigit c = true) (hf : ∀ c ∈ fs, isDigit c = true) :
    TrimSpace (ws₁ ++ (ds ++ ',' :: fs) ++ ws₂) = ds ++ ',' :: fs ∧
      ReplaceAll (ds ++ ',' :: fs) ',' ['.'] = ds ++ '.' :: fs := by
  constructor
  · obtain ⟨d, dt, rfl⟩ := List.exists_cons_of_ne_nil hds
    obtain ⟨z, hz⟩ : ∃ z, fs.reverse.head? = some z := by
      cases hr : fs.reverse with
      | nil => exact absurd (List.reverse_eq_nil_iff.1 hr) hfs
      | cons y r => exact ⟨y, rfl⟩
    have hzmem : z ∈ fs := by
      have : z ∈ fs.reverse := List.mem_of_mem_head? hz
      exact List.mem_reverse.1 this
    refine TrimSpace_surrounded ws₁ _ ws₂ d z (dt ++ ',' :: fs) hws₁ hws₂ rfl ?_
      (isSpace_of_isDigit d (hd d (List.mem_cons_self _ _))) (isSpace_of_isDigit z (hf z hzmem))
    rw [List.reverse_append, List.reverse_cons]
    cases hr : fs.reverse with
    | nil => exact absurd (List.reverse_eq_nil_iff.1 hr) hfs
    | cons y r =>
      rw [hr] at hz
      simpa using hz
  · rw [ReplaceAll_append, ReplaceAll_absent ds ',' _ (digits_no_comma ds hd)]
    simp only [ReplaceAll, if_true, List.singleton_append]
    rw [ReplaceAll_absent fs ',' _ (digits_no_comma fs hf)]

/-! ## The rate cache: properties -/

theorem Since_lt_cacheDuration (now t : Int) :
    Since now t < cacheDuration ↔ now - t < cacheDuration := by
  unfold Since maxDuration minDuration cacheDuration
  split_ifs <;> constructor <;> intro h <;> omega

/-- A call on a fresh cache holding a rate other than zero returns it at once. -/
theorem GetDollarRate_hit (c : Cache) (call : Call)
    (hfresh : Since call.now c.lastFetchTime < cacheDuration)
    (hrate : c.cachedRate.isZero = false) :
    (GetDollarRate c call).result = .ok c.cachedRate ∧
      (GetDollarRate c call).cache = c ∧ (GetDollarRate c call).fetches = 0 := by
  simp [GetDollarRate, hfresh, hrate]

/-- A call on an expired or empty cache sends one request to the site. -/
theorem GetDollarRate_miss (c : Cache) (call : Call)
    (hmiss : ¬ (Since call.now c.lastFetchTime < cacheDuration ∧ c.cachedRate.isZero = false)) :
    (GetDollarRate c call).fetches = 1 ∧
      (∀ err, fetchRate call.upstream = .error err →
        (GetDollarRate c call).result = .error err ∧ (GetDollarRate c call).cache = c) ∧
      (∀ r, fetchRate call.upstream = .ok r →
        (GetDollarRate c call).result = .ok r ∧
          (GetDollarRate c call).cache = ⟨r, call.storeTime⟩) := by
  unfold GetDollarRate
  rw [if_neg hmiss]
  refine ⟨?_, ?_, ?_⟩
  · cases fetchRate call.upstream <;> rfl
  · intro err h; rw [h]; exact ⟨rfl, rfl⟩
  · intro r h; rw [h]; exact ⟨rfl, rfl⟩

theorem fetchRate_eq (u : Upstream) :
    fetchRate u =
      if u.getFails then .error .connect
      else if u.statusCode ≠ 200 then .error (.status u.statusCode)
      else if u.docFails then .error .document
      else convertRate (eachRateStr u.strongTexts) := rfl

/-- The five failing answers are exactly those on which the fetch returns an error. -/
theorem upstreamFails_iff (u : Upstream) :
    UpstreamFails u ↔ ∃ err, fetchRate u = .error err := by
  unfold UpstreamFails
  rw [fetchRate_eq]
  by_cases h1 : u.getFails = true
  · simp [h1]
  by_cases h2 : u.statusCode = 200
  swap
  · simp [h1, h2]
  by_cases h3 : u.docFails = true
  · simp [h1, h2, h3]
  by_cases h4 : eachRateStr u.strongTexts = []
  · simp [h1, h2, h3, h4, convertRate]
  simp only [h1, h2, h3, h4, convertRate, false_or, ne_eq, not_true_eq_false, if_false,
    Bool.false_eq_true, if_neg, not_false_eq_true]
  cases hp : ParseFloat (ReplaceAll (eachRateStr u.strongTexts) ',' ['.']) with
  | error e => simp
  | ok r => simp

/-- C1, as stated, fails: the fetch of the text `0,00` succeeds with rate 0 and
leaves it in the cache with timestamp 7; a call one nanosecond later falls inside
the freshness window, yet it sends a request, returns the new rate 36.5 and
replaces the cache. -/
theorem GetDollarRate_zero_rate_refetched :
    (GetDollarRate Cache.initial ⟨5, pageWith "0,00".data, 7⟩).result = .ok F64.zero ∧
      (GetDollarRate Cache.initial ⟨5, pageWith "0,00".data, 7⟩).cache = ⟨F64.zero, 7⟩ ∧
      Since 8 7 < cacheDuration ∧
      (GetDollarRate ⟨F64.zero, 7⟩ ⟨8, pageWith "36,50".data, 9⟩).fetches = 1 ∧
      (GetDollarRate ⟨F64.zero, 7⟩ ⟨8, pageWith "36,50".data, 9⟩).result =
        .ok (F64.ofScaled false 73 (-1)) ∧
      (GetDollarRate ⟨F64.zero, 7⟩ ⟨8, pageWith "36,50".data, 9⟩).cache =
        ⟨F64.ofScaled false 73 (-1), 9⟩ := by
  decide

/-- C1 (amended): for every cache state left by a successful fetch of a rate other
than zero, and every call whose distance from that fetch is below the freshness
window of 10 minutes, `GetDollarRate` returns the cached rate with no error, sends
no request, and leaves `cachedRate` and `lastFetchTime` unchanged. -/
theorem GetDollarRate_within_window (c : Cache) (fetch call : Call) (r : F64)
    (hfetched : (GetDollarRate c fetch).fetches = 1)
    (hok : (GetDollarRate c fetch).result = .ok r)
    (hrate : r.isZero = false)
    (hwindow : Since call.now fetch.storeTime < cacheDuration) :
    (GetDollarRate c fetch).cache = ⟨r, fetch.storeTime⟩ ∧
      (GetDollarRate (GetDollarRate c fetch).cache call).result = .ok r ∧
      (GetDollarRate (GetDollarRate c fetch).cache call).fetches = 0 ∧
      (GetDollarRate (GetDollarRate c fetch).cache call).cache =
        (GetDollarRate c fetch).cache := by
  have hmiss : ¬ (Since fetch.now c.lastFetchTime < cacheDuration ∧
      c.cachedRate.isZero = false) := by
    intro h
    have := (GetDollarRate_hit c fetch h.1 h.2).2.2
    omega
  obtain ⟨-, herr, hsucc⟩ := GetDollarRate_miss c fetch hmiss
  have hcache : (GetDollarRate c fetch).cache = ⟨r, fetch.storeTime⟩ := by
    cases hf : fetchRate fetch.upstream with
    | error err =>
      have := (herr err hf).1
      rw [hok] at this
      cases this
    | ok r' =>
      obtain ⟨h1, h2⟩ := hsucc r' hf
      rw [hok] at h1
      cases h1
      exact h2
  rw [hcache]
  obtain ⟨h1, h2, h3⟩ := GetDollarRate_hit ⟨r, fetch.storeTime⟩ call hwindow hrate
  exact ⟨rfl, h1, h3, h2⟩

/-- An instance of C1: the rate 36.5 fetched at program start is served from the
cache one nanosecond before the window of 10 minutes closes. -/
theorem GetDollarRate_within_window_witness :
    (GetDollarRate Cache.initial ⟨5, pageWith "36,50".data, 7⟩).fetches = 1 ∧
      (GetDollarRate Cache.initial ⟨5, pageWith "36,50".data, 7⟩).result =
        .ok (F64.ofScaled false 73 (-1)) ∧
      (F64.ofScaled false 73 (-1)).isZero = false ∧
      Since 600000000006 7 < cacheDuration ∧
      (GetDollarRate Cache.initial ⟨5, pageWith "36,50".data, 7⟩).cache =
        ⟨F64.ofScaled false 73 (-1), 7⟩ ∧
      (GetDollarRate (GetDollarRate Cache.initial ⟨5, pageWith "36,50".data, 7⟩).cache
        ⟨600000000006, pageWith "40,00".data, 600000000009⟩).result =
          .ok (F64.ofScaled false 73 (-1)) ∧
      (GetDollarRate (GetDollarRate Cache.initial ⟨5, pageWith "36,50".data, 7⟩).cache
        ⟨600000000006, pageWith "40,00".data, 600000000009⟩).fetches = 0 ∧
      (GetDollarRate (GetDollarRate Cache.initial ⟨5, pageWith "36,50".data, 7⟩).cache
        ⟨600000000006, pageWith "40,00".data, 600000000009⟩).cache =
          (GetDollarRate Cache.initial ⟨5, pageWith "36,50".data, 7⟩).cache :=
  ⟨by decide, by decide, by decide, by decide,
    GetDollarRate_within_window Cache.initial ⟨5, pageWith "36,50".data, 7⟩
      ⟨600000000006, pageWith "40,00".data, 600000000009⟩ (F64.ofScaled false 73 (-1))
      (by decide) (by decide) (by decide) (by decide)⟩

theorem Since_mono (t now₁ now₂ : Int) (h : now₁ ≤ now₂)
    (hwin : Since now₂ t < cacheDuration) : Since now₁ t < cacheDuration := by
  rw [Since_lt_cacheDuration] at hwin ⊢
  omega

theorem fetches_eq_one_iff (c : Cache) (call : Call) :
    (GetDollarRate c call).fetches = 1 ↔
      ¬ (Since call.now c.lastFetchTime < cacheDuration ∧ c.cachedRate.isZero = false) := by
  constructor
  · intro hf h
    have := (GetDollarRate_hit c call h.1 h.2).2.2
    omega
  · intro h
    exact (GetDollarRate_miss c call h).1

/-- C2, as stated, fails: on a fresh entry holding 36.5 the site answers status
503, a failing outcome, yet `GetDollarRate` returns 36.5 with no error, because
the site is not asked. -/
theorem GetDollarRate_fresh_hides_failure :
    UpstreamFails (⟨false, 503, false, []⟩ : Upstream) ∧
      Since 100 7 < cacheDuration ∧
      (GetDollarRate ⟨F64.ofScaled false 73 (-1), 7⟩
        ⟨100, ⟨false, 503, false, []⟩, 101⟩).result = .ok (F64.ofScaled false 73 (-1)) ∧
      (GetDollarRate ⟨F64.ofScaled false 73 (-1), 7⟩
        ⟨100, ⟨false, 503, false, []⟩, 101⟩).fetches = 0 :=
  ⟨Or.inr (Or.inl (by decide)), by decide, by decide, by decide⟩

/-- C2 (amended): for every cache state and every failing answer of the site
(network error, status other than 200, unparsable document, rate text not found,
rate text not numeric), `GetDollarRate` leaves `cachedRate` and `lastFetchTime`
exactly as before the call, and returns the error whenever the call asks the site,
that is when the entry is expired or its rate is zero; on a fresh entry with a
rate other than zero the site is not asked and the cached rate is returned.  A
prior valid rate is therefore still returned, with no request, by a later call
inside its freshness window; for a later call in clock order this means the
earlier call was served from the cache too, and after a failed fetch the next
call asks the site again. -/
theorem GetDollarRate_failure_keeps_cache (c : Cache) (call later : Call)
    (hfail : UpstreamFails call.upstream) (horder : call.now ≤ later.now) :
    (GetDollarRate c call).cache = c ∧
      (¬ (Since call.now c.lastFetchTime < cacheDuration ∧ c.cachedRate.isZero = false) →
        (GetDollarRate c call).fetches = 1 ∧
          ∃ err, fetchRate call.upstream = .error err ∧
            (GetDollarRate c call).result = .error err) ∧
      (Since call.now c.lastFetchTime < cacheDuration ∧ c.cachedRate.isZero = false →
        (GetDollarRate c call).fetches = 0 ∧
          (GetDollarRate c call).result = .ok c.cachedRate) ∧
      (c.cachedRate.isZero = false →
        Since later.now c.lastFetchTime < cacheDuration →
          (GetDollarRate (GetDollarRate c call).cache later).result = .ok c.cachedRate ∧
            (GetDollarRate (GetDollarRate c call).cache later).fetches = 0 ∧
            (GetDollarRate c call).fetches = 0) ∧
      ((GetDollarRate c call).fetches = 1 →
        (GetDollarRate (GetDollarRate c call).cache later).fetches = 1) := by
  obtain ⟨err, herr⟩ := (upstreamFails_iff call.upstream).1 hfail
  have hcache : (GetDollarRate c call).cache = c := by
    by_cases hhit : Since call.now c.lastFetchTime < cacheDuration ∧
        c.cachedRate.isZero = false
    · exact (GetDollarRate_hit c call hhit.1 hhit.2).2.1
    · exact ((GetDollarRate_miss c call hhit).2.1 err herr).2
  refine ⟨hcache, ?_, ?_, ?_, ?_⟩
  · intro hmiss
    obtain ⟨h1, h2, -⟩ := GetDollarRate_miss c call hmiss
    exact ⟨h1, err, herr, (h2 err herr).1⟩
  · intro hhit
    obtain ⟨h1, -, h3⟩ := GetDollarRate_hit c call hhit.1 hhit.2
    exact ⟨h3, h1⟩
  · intro hrate hwin
    rw [hcache]
    obtain ⟨h1, -, h3⟩ := GetDollarRate_hit c later hwin hrate
    have hcallwin := Since_mono c.lastFetchTime call.now later.now horder hwin
    exact ⟨h1, h3, (GetDollarRate_hit c call hcallwin hrate).2.2⟩
  · intro hf
    rw [hcache]
    have hmiss := (fetches_eq_one_iff c call).1 hf
    apply (fetches_eq_one_iff c later).2
    intro hlater
    exact hmiss ⟨Since_mono c.lastFetchTime call.now later.now horder hlater.1, hlater.2⟩

/-- Two instances of C2, the clock moving forward.  The site answers status 503 to
a call on an entry exactly 10 minutes old: the call fails, the cache keeps 36.5
and its timestamp, and the next call asks the site again.  The site answers 503 to
a call on a fresh entry: it is not asked, and the later call inside the window is
served 36.5 as well. -/
theorem GetDollarRate_failure_keeps_cache_witness :
    UpstreamFails (⟨false, 503, false, []⟩ : Upstream) ∧
      ((600000000007 : Int) ≤ 600000000100 ∧
        ¬ (Since 600000000007 7 < cacheDuration ∧
          (F64.ofScaled false 73 (-1)).isZero = false) ∧
        (GetDollarRate ⟨F64.ofScaled false 73 (-1), 7⟩
          ⟨600000000007, ⟨false, 503, false, []⟩, 600000000008⟩).cache =
          ⟨F64.ofScaled false 73 (-1), 7⟩ ∧
        (GetDollarRate ⟨F64.ofScaled false 73 (-1), 7⟩
          ⟨600000000007, ⟨false, 503, false, []⟩, 600000000008⟩).fetches = 1 ∧
        (∃ err, fetchRate (⟨false, 503, false, []⟩ : Upstream) = .error err ∧
          (GetDollarRate ⟨F64.ofScaled false 73 (-1), 7⟩
            ⟨600000000007, ⟨false, 503, false, []⟩, 600000000008⟩).result = .error err) ∧
        (GetDollarRate (GetDollarRate ⟨F64.ofScaled false 73 (-1), 7⟩
            ⟨600000000007, ⟨false, 503, false, []⟩, 600000000008⟩).cache
          ⟨600000000100, pageWith "40,00".data, 600000000200⟩).fetches = 1) ∧
      ((100 : Int) ≤ 200 ∧
        (Since 100 7 < cacheDuration ∧ (F64.ofScaled false 73 (-1)).isZero = false) ∧
        Since 200 7 < cacheDuration ∧
        (GetDollarRate ⟨F64.ofScaled false 73 (-1), 7⟩
          ⟨100, ⟨false, 503, false, []⟩, 101⟩).cache = ⟨F64.ofScaled false 73 (-1), 7⟩ ∧
        (GetDollarRate ⟨F64.ofScaled false 73 (-1), 7⟩
          ⟨100, ⟨false, 503, false, []⟩, 101⟩).result = .ok (F64.ofScaled false 73 (-1)) ∧
        (GetDollarRate (GetDollarRate ⟨F64.ofScaled false 73 (-1), 7⟩
            ⟨100, ⟨false, 503, false, []⟩, 101⟩).cache
          ⟨200, pageWith "40,00".data, 201⟩).result = .ok (F64.ofScaled false 73 (-1)) ∧
        (GetDollarRate (GetDollarRate ⟨F64.ofScaled false 73 (-1), 7⟩
            ⟨100, ⟨false, 503, false, []⟩, 101⟩).cache
          ⟨200, pageWith "40,00".data, 201⟩).fetches = 0) :=
  have hfail : UpstreamFails (⟨false, 503, false, []⟩ : Upstream) :=
    Or.inr (Or.inl (by decide))
  have hA := GetDollarRate_failure_keeps_cache ⟨F64.ofScaled false 73 (-1), 7⟩
    ⟨600000000007, ⟨false, 503, false, []⟩, 600000000008⟩
    ⟨600000000100, pageWith "40,00".data, 600000000200⟩ hfail (by decide)
  have hB := GetDollarRate_failure_keeps_cache ⟨F64.ofScaled false 73 (-1), 7⟩
    ⟨100, ⟨false, 503, false, []⟩, 101⟩ ⟨200, pageWith "40,00".data, 201⟩ hfail
    (by decide)
  ⟨hfail,
    ⟨by decide, by decide, hA.1, (hA.2.1 (by decide)).1, (hA.2.1 (by decide)).2,
      hA.2.2.2.2 (hA.2.1 (by decide)).1⟩,
    ⟨by decide, by decide, by decide, hB.1, (hB.2.2.1 (by decide)).2,
      (hB.2.2.2.1 (by decide) (by decide)).1, (hB.2.2.2.1 (by decide) (by decide)).2.1⟩⟩

/-- C3: for every cache state whose age at the call is at least the freshness
window, one call of `GetDollarRate` sends exactly one request to the site, and when
that fetch succeeds with rate `r` the call returns `r` with no error, sets
`cachedRate` to `r` and sets `lastFetchTime` to the clock reading of the call
(`time.Now()` taken once the answer is parsed). -/
theorem GetDollarRate_expired_fetches_once (c : Cache) (call : Call) (r : F64)
    (hexpired : cacheDuration ≤ Since call.now c.lastFetchTime) :
    (GetDollarRate c call).fetches = 1 ∧
      (fetchRate call.upstream = .ok r →
        (GetDollarRate c call).result = .ok r ∧
          (GetDollarRate c call).cache.cachedRate = r ∧
          (GetDollarRate c call).cache.lastFetchTime = call.storeTime) := by
  have hmiss : ¬ (Since call.now c.lastFetchTime < cacheDuration ∧
      c.cachedRate.isZero = false) := by
    intro h
    omega
  obtain ⟨h1, -, h3⟩ := GetDollarRate_miss c call hmiss
  refine ⟨h1, fun hr => ?_⟩
  obtain ⟨h4, h5⟩ := h3 r hr
  rw [h5]
  exact ⟨h4, rfl, rfl⟩

/-- An instance of C3: a cache exactly 10 minutes old is refreshed with 40.25. -/
theorem GetDollarRate_expired_fetches_once_witness :
    cacheDuration ≤ Since 600000000007 7 ∧
      fetchRate (pageWith " 40,25 ".data) = .ok (F64.ofScaled false 161 (-2)) ∧
      (GetDollarRate ⟨F64.ofScaled false 73 (-1), 7⟩
        ⟨600000000007, pageWith " 40,25 ".data, 600000000950⟩).fetches = 1 ∧
      (GetDollarRate ⟨F64.ofScaled false 73 (-1), 7⟩
        ⟨600000000007, pageWith " 40,25 ".data, 600000000950⟩).result =
          .ok (F64.ofScaled false 161 (-2)) ∧
      (GetDollarRate ⟨F64.ofScaled false 73 (-1), 7⟩
        ⟨600000000007, pageWith " 40,25 ".data, 600000000950⟩).cache.cachedRate =
          F64.ofScaled false 161 (-2) ∧
      (GetDollarRate ⟨F64.ofScaled false 73 (-1), 7⟩
        ⟨600000000007, pageWith " 40,25 ".data, 600000000950⟩).cache.lastFetchTime =
          600000000950 :=
  have h := GetDollarRate_expired_fetches_once ⟨F64.ofScaled false 73 (-1), 7⟩
    ⟨600000000007, pageWith " 40,25 ".data, 600000000950⟩ (F64.ofScaled false 161 (-2))
    (by decide)
  ⟨by decide, by decide, h.1, h.2 (by decide)⟩

theorem isZero_of_isPos (r : F64) (h : r.isPos = true) : r.isZero = false := by
  cases r with
  | nan => rfl
  | inf s => rfl
  | fin s m e =>
    simp only [F64.isPos, Bool.and_eq_true, decide_eq_true_eq] at h
    simp only [F64.isZero, beq_eq_false_iff_ne, ne_eq]
    omega

/-- Calls that all fall inside the freshness window of a cached rate other than
zero all return it, and none sends a request. -/
theorem runCalls_all_hits (r : F64) (t : Int) (hrate : r.isZero = false) (calls : List Call)
    (hwin : ∀ call ∈ calls, Since call.now t < cacheDuration) :
    runCalls ⟨r, t⟩ calls = (List.replicate calls.length (.ok r), ⟨r, t⟩, 0) := by
  induction calls with
  | nil => rfl
  | cons call rest ih =>
    obtain ⟨h1, h2, h3⟩ :=
      GetDollarRate_hit ⟨r, t⟩ call (hwin call (List.mem_cons_self _ _)) hrate
    have ih := ih (fun x hx => hwin x (List.mem_cons_of_mem _ hx))
    simp only [runCalls, h1, h2, h3, ih, List.length_cons, List.replicate_succ, zero_add]

/-- C4: for every N ≥ 1, when N calls of `GetDollarRate` start on an expired cache
and run one after the other, the site answers the positive rate `r`, and every call
after the first falls inside the freshness window of the first call's fetch, then
exactly one request is sent (by the first call) and all N calls return `r`. -/
theorem runCalls_single_fetch (c : Cache) (first : Call) (rest : List Call) (r : F64)
    (hexpired : cacheDuration ≤ Since first.now c.lastFetchTime)
    (hsite : ∀ call ∈ first :: rest, fetchRate call.upstream = .ok r)
    (hpos : r.isPos = true)
    (hwin : ∀ call ∈ rest, Since call.now first.storeTime < cacheDuration) :
    (runCalls c (first :: rest)).1 = List.replicate (rest.length + 1) (.ok r) ∧
      (runCalls c (first :: rest)).2.2 = 1 ∧
      (GetDollarRate c first).fetches = 1 := by
  have hmiss : ¬ (Since first.now c.lastFetchTime < cacheDuration ∧
      c.cachedRate.isZero = false) := by
    intro h
    omega
  obtain ⟨h1, -, h2⟩ := GetDollarRate_miss c first hmiss
  obtain ⟨h3, hcache⟩ := h2 r (hsite first (List.mem_cons_self _ _))
  have hrest := runCalls_all_hits r first.storeTime (isZero_of_isPos r hpos) rest hwin
  simp only [runCalls, h1, h3, hcache, hrest, List.replicate_succ, and_self]

/-- An instance of C4: three calls on an expired cache, the site showing 40.25. -/
theorem runCalls_single_fetch_witness :
    cacheDuration ≤ Since 600000000007 7 ∧
      (F64.ofScaled false 161 (-2)).isPos = true ∧
      (∀ call ∈ [(⟨600000000008, pageWith "40,25".data, 600000000051⟩ : Call),
          ⟨1200000000049, pageWith "40,25".data, 1200000000059⟩],
        Since call.now 600000000050 < cacheDuration) ∧
      (runCalls ⟨F64.ofScaled false 73 (-1), 7⟩
        [⟨600000000007, pageWith "40,25".data, 600000000050⟩,
         ⟨600000000008, pageWith "40,25".data, 600000000051⟩,
         ⟨1200000000049, pageWith "40,25".data, 1200000000059⟩]).1 =
        List.replicate (2 + 1) (.ok (F64.ofScaled false 161 (-2))) ∧
      (runCalls ⟨F64.ofScaled false 73 (-1), 7⟩
        [⟨600000000007, pageWith "40,25".data, 600000000050⟩,
         ⟨600000000008, pageWith "40,25".data, 600000000051⟩,
         ⟨1200000000049, pageWith "40,25".data, 1200000000059⟩]).2.2 = 1 ∧
      (GetDollarRate ⟨F64.ofScaled false 73 (-1), 7⟩
        ⟨600000000007, pageWith "40,25".data, 600000000050⟩).fetches = 1 :=
  ⟨by decide, by decide, by decide,
    runCalls_single_fetch ⟨F64.ofScaled false 73 (-1), 7⟩
      ⟨600000000007, pageWith "40,25".data, 600000000050⟩
      [⟨600000000008, pageWith "40,25".data, 600000000051⟩,
       ⟨1200000000049, pageWith "40,25".data, 1200000000059⟩]
      (F64.ofScaled false 161 (-2)) (by decide) (by decide) (by decide) (by decide)⟩

/-! ## HomeHandler: properties -/

theorem HomeHandler_page (c : Cache) (call : Call) (lastUpdated : GoStr) (r : Request)
    (rate : F64) (hrate : (GetDollarRate c call).result = .ok rate) :
    (HomeHandler c call lastUpdated r).1 = .page (pageData rate lastUpdated r) := by
  simp only [HomeHandler, hrate]

theorem pageData_bs_to_usd (rate amount : F64) (lastUpdated amountStr direction : GoStr)
    (hdir : direction ≠ "usd_to_bs".data)
    (hamount : ParseFloat (ReplaceAll amountStr ',' []) = .ok amount) :
    pageData rate lastUpdated ⟨"POST".data, amountStr, direction⟩ =
      if rate.isZero then
        { Rate := rate, FormattedRate := FormatearMonto rate, Converted := F64.zero,
          FormattedConverted := [], Input := amount, FormattedInput := FormatearMonto amount,
          Direction := direction, ErrorMessage := zeroRateMessage,
          LastUpdated := lastUpdated }
      else
        { Rate := rate, FormattedRate := FormatearMonto rate,
          Converted := F64.div amount rate,
          FormattedConverted := FormatearMonto (F64.div amount rate), Input := amount,
          FormattedInput := FormatearMonto amount, Direction := direction,
          ErrorMessage := [], LastUpdated := lastUpdated } := by
  simp only [pageData, hamount, if_true, if_neg hdir]

theorem pageData_usd_to_bs (rate amount : F64) (lastUpdated amountStr : GoStr)
    (hamount : ParseFloat (ReplaceAll amountStr ',' []) = .ok amount) :
    pageData rate lastUpdated ⟨"POST".data, amountStr, "usd_to_bs".data⟩ =
      { Rate := rate, FormattedRate := FormatearMonto rate,
        Converted := F64.mul amount rate,
        FormattedConverted := FormatearMonto (F64.mul amount rate), Input := amount,
        FormattedInput := FormatearMonto amount, Direction := "usd_to_bs".data,
        ErrorMessage := [], LastUpdated := lastUpdated } := by
  simp only [pageData, hamount, if_true]

/-- C5: for every amount, a `bs_to_usd` conversion yields a page with
`ErrorMessage` set and no converted value (`Converted` left at 0,
`FormattedConverted` left empty) if and only if the rate is zero; when the rate is
not zero the page has no error message and `Converted = amount / rate`, the
IEEE 754 quotient: the exact quotient rounded to the nearest binary64 value, ties
to even (`IsQuotient`). -/
theorem HomeHandler_bs_to_usd (c : Cache) (call : Call) (lastUpdated amountStr : GoStr)
    (rate amount : F64)
    (hrate : (GetDollarRate c call).result = .ok rate)
    (hamount : ParseFloat (ReplaceAll amountStr ',' []) = .ok amount) :
    ∃ data : PageData,
      (HomeHandler c call lastUpdated ⟨"POST".data, amountStr, "bs_to_usd".data⟩).1 =
        .page data ∧
      ((data.ErrorMessage ≠ [] ∧ data.Converted = F64.zero ∧ data.FormattedConverted = []) ↔
        rate.isZero = true) ∧
      (rate.isZero = false →
        data.ErrorMessage = [] ∧ data.Converted = F64.div amount rate ∧
          IsQuotient amount rate data.Converted ∧
          data.FormattedConverted = FormatearMonto (F64.div amount rate)) := by
  refine ⟨_, HomeHandler_page c call lastUpdated _ rate hrate, ?_, ?_⟩
  · rw [pageData_bs_to_usd rate amount lastUpdated amountStr _ (by decide) hamount]
    cases hz : rate.isZero
    · simp
    · simp only [if_true, and_self, iff_true, and_true]
      decide
  · intro hz
    rw [pageData_bs_to_usd rate amount lastUpdated amountStr _ (by decide) hamount, hz]
    exact ⟨rfl, rfl, div_isQuotient amount rate hz, rfl⟩

/-- The witness of C5: rate 0 (the site shows `0,00`) and amount 100 give an error
message and no converted value; rate 36.5 and amount 3650 give no error message
and `Converted = 100`, shown as `100.00`; rate 36.5 and amount 100 give the
binary64 value nearest to `100 / 36.5`, shown as `2.74`. -/
theorem HomeHandler_bs_to_usd_witness :
    ((GetDollarRate Cache.initial ⟨5, pageWith "0,00".data, 7⟩).result = .ok F64.zero ∧
      ParseFloat (ReplaceAll "100".data ',' []) = .ok (F64.ofScaled false 100 0) ∧
      ∃ data : PageData,
        (HomeHandler Cache.initial ⟨5, pageWith "0,00".data, 7⟩ "01/11/2026 10:00:00".data
          ⟨"POST".data, "100".data, "bs_to_usd".data⟩).1 = .page data ∧
        data.ErrorMessage ≠ [] ∧ data.Converted = F64.zero ∧
          data.FormattedConverted = []) ∧
    ((GetDollarRate Cache.initial ⟨5, pageWith "36,50".data, 7⟩).result =
        .ok (F64.ofScaled false 73 (-1)) ∧
      ParseFloat (ReplaceAll "3,650".data ',' []) = .ok (F64.ofScaled false 3650 0) ∧
      (F64.ofScaled false 73 (-1)).isZero = false ∧
      (F64.ofScaled false 3650 0).mag = 3650 ∧ (F64.ofScaled false 73 (-1)).mag = 73 / 2 ∧
      (F64.ofScaled false 100 0).mag = 100 ∧
      ∃ data : PageData,
        (HomeHandler Cache.initial ⟨5, pageWith "36,50".data, 7⟩ "01/11/2026 10:00:00".data
          ⟨"POST".data, "3,650".data, "bs_to_usd".data⟩).1 = .page data ∧
        data.ErrorMessage = [] ∧ data.Converted = F64.ofScaled false 100 0 ∧
        IsQuotient (F64.ofScaled false 3650 0) (F64.ofScaled false 73 (-1)) data.Converted ∧
        data.FormattedConverted = "100.00".data) ∧
    (ParseFloat (ReplaceAll "100".data ',' []) = .ok (F64.ofScaled false 100 0) ∧
      ∃ data : PageData,
        (HomeHandler Cache.initial ⟨5, pageWith "36,50".data, 7⟩ "01/11/2026 10:00:00".data
          ⟨"POST".data, "100".data, "bs_to_usd".data⟩).1 = .page data ∧
        data.ErrorMessage = [] ∧ data.Converted = F64.fin false 6169314558041775 (-51) ∧
        IsQuotient (F64.ofScaled false 100 0) (F64.ofScaled false 73 (-1)) data.Converted ∧
        data.FormattedConverted = "2.74".data) := by
  have m1 : F64.ofScaled false 73 (-1) = F64.fin false 5136918324969472 (-47) := by decide
  have m2 : F64.ofScaled false 100 0 = F64.fin false 7036874417766400 (-46) := by decide
  have m3 : F64.ofScaled false 3650 0 = F64.fin false 8026434882764800 (-41) := by decide
  refine ⟨⟨by decide, by decide, ?_⟩, ⟨by decide, by decide, by decide, ?_, ?_, ?_, ?_⟩,
    ⟨by decide, ?_⟩⟩
  · obtain ⟨data, h1, h2, -⟩ :=
      HomeHandler_bs_to_usd Cache.initial ⟨5, pageWith "0,00".data, 7⟩
        "01/11/2026 10:00:00".data "100".data F64.zero (F64.ofScaled false 100 0)
        (by decide) (by decide)
    exact ⟨data, h1, h2.2 (by decide)⟩
  · rw [m3]
    show magVal 8026434882764800 (-41) = 3650
    unfold magVal
    rw [zpow_neg, show (2 : ℚ) ^ (41 : ℤ) = 2 ^ 41 by norm_cast]
    norm_num
  · rw [m1]
    show magVal 5136918324969472 (-47) = 73 / 2
    unfold magVal
    rw [zpow_neg, show (2 : ℚ) ^ (47 : ℤ) = 2 ^ 47 by norm_cast]
    norm_num
  · rw [m2]
    show magVal 7036874417766400 (-46) = 100
    unfold magVal
    rw [zpow_neg, show (2 : ℚ) ^ (46 : ℤ) = 2 ^ 46 by norm_cast]
    norm_num
  · obtain ⟨data, h1, -, h3⟩ :=
      HomeHandler_bs_to_usd Cache.initial ⟨5, pageWith "36,50".data, 7⟩
        "01/11/2026 10:00:00".data "3,650".data (F64.ofScaled false 73 (-1))
        (F64.ofScaled false 3650 0) (by decide) (by decide)
    obtain ⟨h4, h5, h6, h7⟩ := h3 (by decide)
    refine ⟨data, h1, h4, ?_, h6, ?_⟩
    · rw [h5]; decide
    · rw [h7]; decide
  · obtain ⟨data, h1, -, h3⟩ :=
      HomeHandler_bs_to_usd Cache.initial ⟨5, pageWith "36,50".data, 7⟩
        "01/11/2026 10:00:00".data "100".data (F64.ofScaled false 73 (-1))
        (F64.ofScaled false 100 0) (by decide) (by decide)
    obtain ⟨h4, h5, h6, h7⟩ := h3 (by decide)
    refine ⟨data, h1, h4, ?_, h6, ?_⟩
    · rw [h5]; decide
    · rw [h7]; decide

/-- C8: for every rate and every amount, a `usd_to_bs` conversion sets
`Converted = amount * rate` with no error message (also when the rate is zero),
`FormattedInput = FormatearMonto(amount)` and
`FormattedConverted = FormatearMonto(Converted)`. -/
theorem HomeHandler_usd_to_bs (c : Cache) (call : Call) (lastUpdated amountStr : GoStr)
    (rate amount : F64)
    (hrate : (GetDollarRate c call).result = .ok rate)
    (hamount : ParseFloat (ReplaceAll amountStr ',' []) = .ok amount) :
    ∃ data : PageData,
      (HomeHandler c call lastUpdated ⟨"POST".data, amountStr, "usd_to_bs".data⟩).1 =
        .page data ∧
      data.Converted = F64.mul amount rate ∧ data.ErrorMessage = [] ∧
      data.Input = amount ∧ data.FormattedInput = FormatearMonto amount ∧
      data.FormattedConverted = FormatearMonto data.Converted := by
  refine ⟨_, HomeHandler_page c call lastUpdated _ rate hrate, ?_⟩
  rw [pageData_usd_to_bs rate amount lastUpdated amountStr hamount]
  exact ⟨rfl, rfl, rfl, rfl, rfl⟩

/-- The witness of C8: rate 36.5 (the site shows `36,50`) and amount 100 give
`Converted = 3650`, shown as `3,650.00`. -/
theorem HomeHandler_usd_to_bs_witness :
    (GetDollarRate Cache.initial ⟨5, pageWith "36,50".data, 7⟩).result =
        .ok (F64.ofScaled false 73 (-1)) ∧
      ParseFloat (ReplaceAll "100".data ',' []) = .ok (F64.ofScaled false 100 0) ∧
      (F64.ofScaled false 73 (-1)).mag = 73 / 2 ∧ (F64.ofScaled false 100 0).mag = 100 ∧
      (F64.ofScaled false 3650 0).mag = 3650 ∧
      ∃ data : PageData,
        (HomeHandler Cache.initial ⟨5, pageWith "36,50".data, 7⟩ "01/11/2026 10:00:00".data
          ⟨"POST".data, "100".data, "usd_to_bs".data⟩).1 = .page data ∧
        data.Converted = F64.ofScaled false 3650 0 ∧ data.ErrorMessage = [] ∧
        data.FormattedInput = "100.00".data ∧ data.FormattedConverted = "3,650.00".data := by
  have m1 : F64.ofScaled false 73 (-1) = F64.fin false 5136918324969472 (-47) := by decide
  have m2 : F64.ofScaled false 100 0 = F64.fin false 7036874417766400 (-46) := by decide
  have m3 : F64.ofScaled false 3650 0 = F64.fin false 8026434882764800 (-41) := by decide
  refine ⟨by decide, by decide, ?_, ?_, ?_, ?_⟩
  · rw [m1]
    show magVal 5136918324969472 (-47) = 73 / 2
    unfold magVal
    rw [zpow_neg, show (2 : ℚ) ^ (47 : ℤ) = 2 ^ 47 by norm_cast]
    norm_num
  · rw [m2]
    show magVal 7036874417766400 (-46) = 100
    unfold magVal
    rw [zpow_neg, show (2 : ℚ) ^ (46 : ℤ) = 2 ^ 46 by norm_cast]
    norm_num
  · rw [m3]
    show magVal 8026434882764800 (-41) = 3650
    unfold magVal
    rw [zpow_neg, show (2 : ℚ) ^ (41 : ℤ) = 2 ^ 41 by norm_cast]
    norm_num
  obtain ⟨data, h1, h2, h3, -, h5, h6⟩ :=
    HomeHandler_usd_to_bs Cache.initial ⟨5, pageWith "36,50".data, 7⟩
      "01/11/2026 10:00:00".data "100".data (F64.ofScaled false 73 (-1))
      (F64.ofScaled false 100 0) (by decide) (by decide)
  refine ⟨data, h1, ?_, h3, ?_, ?_⟩
  · rw [h2]; decide
  · rw [h5]; decide
  · rw [h6, h2]; decide

/-! ## FormatearMonto: properties -/

theorem groupsFromRight_append3 (xs : GoStr) (a b c : Char) :
    groupsFromRight (xs ++ [a, b, c]) = groupsFromRight xs ++ [[a, b, c]] := by
  simp [groupsFromRight, chunksOf3]

theorem joinComma_append_one (gs : List GoStr) (g : GoStr) :
    joinComma (gs ++ [g]) = if gs = [] then g else joinComma gs ++ ',' :: g := by
  induction gs with
  | nil => rfl
  | cons h t ih =>
    cases t with
    | nil => simp [joinComma]
    | cons h2 t2 =>
      simp only [List.cons_append, reduceCtorEq, if_false] at ih ⊢
      show h ++ ',' :: joinComma (h2 :: (t2 ++ [g])) = _
      rw [ih]
      simp [joinComma]

theorem formatLoop_append3 (a b c : Char) (cs : GoStr) (i : Nat) :
    formatLoop (i + cs.length + 3) i (cs ++ [a, b, c]) =
      formatLoop (i + cs.length) i cs ++
        ((if 0 < i + cs.length then [','] else []) ++ [a, b, c]) := by
  induction cs generalizing i with
  | nil =>
    simp only [List.length_nil, add_zero, List.nil_append, formatLoop]
    have h1 : (i + 3 - i) % 3 = 0 := by
      have : i + 3 - i = 3 := by omega
      rw [this]
    have h2 : ¬ (i + 3 - (i + 1)) % 3 = 0 := by
      have : i + 3 - (i + 1) = 2 := by omega
      rw [this]; decide
    have h3 : ¬ (i + 3 - (i + 1 + 1)) % 3 = 0 := by
      have : i + 3 - (i + 1 + 1) = 1 := by omega
      rw [this]; decide
    simp [h1, h2, h3]
  | cons x t ih =>
    have hlen : i + (x :: t).length = (i + 1) + t.length := by
      simp only [List.length_cons]; omega
    rw [hlen]
    simp only [List.cons_append, formatLoop]
    show _ ++ x :: formatLoop (i + 1 + t.length + 3) (i + 1) (t ++ [a, b, c]) = _
    rw [ih (i + 1)]
    have hmod : (i + 1 + t.length + 3 - i) % 3 = (i + 1 + t.length - i) % 3 := by
      have : i + 1 + t.length + 3 - i = (i + 1 + t.length - i) + 3 := by omega
      rw [this, Nat.add_mod_right]
    rw [hmod]
    have hpos : 0 < i + 1 + t.length := by omega
    simp [hpos]

theorem exists_append3 (ds : GoStr) (h : 3 ≤ ds.length) :
    ∃ xs a b c, ds = xs ++ [a, b, c] := by
  have hr : 3 ≤ ds.reverse.length := by simpa using h
  match hd : ds.reverse, hr with
  | c :: b :: a :: r, _ =>
    refine ⟨r.reverse, a, b, c, ?_⟩
    have := congrArg List.reverse hd
    simpa using this

/-- The loop of `FormatearMonto` on a whole string writes its groups of three,
counted from the right, with commas between them. -/
theorem formatLoop_eq_groups (ds : GoStr) :
    formatLoop ds.length 0 ds = joinComma (groupsFromRight ds) := by
  generalize hn : ds.length = n
  induction n using Nat.strong_induction_on generalizing ds with
  | _ n ih =>
    subst hn
    by_cases h3 : 3 ≤ ds.length
    · obtain ⟨xs, a, b, c, rfl⟩ := exists_append3 ds h3
      have hl : (xs ++ [a, b, c]).length = 0 + xs.length + 3 := by simp
      rw [groupsFromRight_append3, joinComma_append_one, hl, formatLoop_append3]
      have hx := ih xs.length (by rw [hl]; omega) xs rfl
      simp only [zero_add]
      rw [hx]
      cases xs with
      | nil => simp [groupsFromRight, chunksOf3, joinComma]
      | cons y ys =>
        have hne : groupsFromRight (y :: ys) ≠ [] := by
          intro h0
          have := congrArg List.length h0
          simp only [groupsFromRight, List.length_reverse, List.length_map,
            List.length_nil] at this
          cases hrev : (y :: ys).reverse with
          | nil => simp at hrev
          | cons z zs =>
            rw [hrev] at this
            match zs, this with
            | [], h => simp [chunksOf3] at h
            | [_], h => simp [chunksOf3] at h
            | _ :: _ :: _, h => simp [chunksOf3] at h
        simp [hne]
    · match ds, h3 with
      | [], _ => rfl
      | [a], _ => rfl
      | [a, b], _ => rfl
      | _ :: _ :: _ :: _, h => simp at h

theorem digits_no_period (ds : GoStr) (h : ∀ c ∈ ds, isDigit c = true) :
    ∀ c ∈ ds, c ≠ '.' :=
  fun c hc => isDigit_ne c '.' (h c hc) (Or.inl (by decide))

/-- `FormatearMonto` on a value whose `%.2f` rendering is `intPart.frac`. -/
theorem FormatearMonto_of_rendering (v : F64) (intPart frac : GoStr)
    (hs : Sprintf2f v = intPart ++ '.' :: frac)
    (h1 : ∀ c ∈ intPart, c ≠ '.') (h2 : ∀ c ∈ frac, c ≠ '.') :
    FormatearMonto v = formatLoop intPart.length 0 intPart ++ '.' :: frac := by
  have := formatParts intPart frac h1 h2
  simp only [FormatearMonto, hs]
  exact this

theorem rne_zero (d : Nat) : F64.rne 0 d = 0 := by
  simp only [F64.rne, Nat.zero_div, Nat.zero_mod, Nat.mul_zero, if_true]
  split_ifs <;> first | rfl | omega

theorem hundredths_zero (s : Bool) (e : Int) : hundredths (F64.fin s 0 e) = 0 := by
  simp [hundredths, F64.scaleNum, rne_zero]

/-- The `%.2f` rendering of a finite value: optional sign, integer digits, period,
two digits. -/
theorem Sprintf2f_fin (s : Bool) (m : Nat) (e : Int) :
    Sprintf2f (F64.fin s m e) =
      ((if s then ['-'] else []) ++ decDigits (hundredths (F64.fin s m e) / 100)) ++
        '.' :: twoDigits (hundredths (F64.fin s m e) % 100) := by
  simp [Sprintf2f]

/-- The groups counted from the right: together they are the digits, the first
has one to three of them, every later one exactly three. -/
theorem groupsFromRight_shape (ds : GoStr) (hne : ds ≠ []) :
    ∃ g gs, groupsFromRight ds = g :: gs ∧ 1 ≤ g.length ∧ g.length ≤ 3 ∧
      (∀ x ∈ gs, x.length = 3) ∧ g ++ gs.flatten = ds := by
  generalize hn : ds.length = n
  induction n using Nat.strong_induction_on generalizing ds with
  | _ n ih =>
    subst hn
    by_cases h4 : 4 ≤ ds.length
    · obtain ⟨xs, a, b, c, rfl⟩ := exists_append3 ds (by omega)
      have hl : (xs ++ [a, b, c]).length = xs.length + 3 := by simp
      have hx : xs ≠ [] := by
        intro h0
        subst h0
        simp at h4
      obtain ⟨g, gs, hg, hg1, hg3, hgs, hjoin⟩ := ih xs.length (by rw [hl]; omega) xs hx rfl
      refine ⟨g, gs ++ [[a, b, c]], ?_, hg1, hg3, ?_, ?_⟩
      · rw [groupsFromRight_append3, hg]
        rfl
      · intro x hx
        rw [List.mem_append, List.mem_singleton] at hx
        rcases hx with hx | hx
        · exact hgs x hx
        · subst hx
          rfl
      · rw [List.flatten_append, ← List.append_assoc, hjoin]
        simp
    · match ds, hne, h4 with
      | [a], _, _ => exact ⟨[a], [], rfl, by simp, by simp, by simp, by simp⟩
      | [a, b], _, _ => exact ⟨[a, b], [], rfl, by simp, by simp, by simp, by simp⟩
      | [a, b, c], _, _ => exact ⟨[a, b, c], [], rfl, by simp, by simp, by simp, by simp⟩
      | _ :: _ :: _ :: _ :: _, _, h => simp at h

/-- C6: for every finite value that is not negative, `FormatearMonto` returns the
value rounded to two decimals with its integer digits split by commas into groups
counted from the right (the first of one to three digits, every later one of
exactly three), then a period and exactly two decimal digits.  Here
`hundredths v` is the value in hundredths rounded to the nearest integer, the
digits before the period denote `hundredths v / 100` and the two after it
`hundredths v % 100`.  (The value `-0` keeps the `-` that `%.2f` prints for it.) -/
theorem FormatearMonto_grouped (v : F64) (hfin : v.isFinite = true)
    (hnn : v.isNeg = false) :
    FormatearMonto v = groupedRendering v ∧
      |(hundredths v : ℚ) - 100 * v.mag| ≤ 1 / 2 ∧
      (|(hundredths v : ℚ) - 100 * v.mag| = 1 / 2 → hundredths v % 2 = 0) ∧
      (∀ c ∈ decDigits (hundredths v / 100), isDigit c = true) ∧
      digitsValue (decDigits (hundredths v / 100)) = hundredths v / 100 ∧
      (∀ c ∈ twoDigits (hundredths v % 100), isDigit c = true) ∧
      (twoDigits (hundredths v % 100)).length = 2 ∧
      digitsValue (twoDigits (hundredths v % 100)) = hundredths v % 100 ∧
      ∃ g gs, groupsFromRight (decDigits (hundredths v / 100)) = g :: gs ∧
        1 ≤ g.length ∧ g.length ≤ 3 ∧ (∀ x ∈ gs, x.length = 3) ∧
        g ++ gs.flatten = decDigits (hundredths v / 100) := by
  refine ⟨?_, ?_, ?_, decDigits_isDigit _, digitsValue_decDigits _, twoDigits_isDigit _, rfl,
    ?_, groupsFromRight_shape _ (decDigits_ne_nil _)⟩
  rotate_right
  · rw [digitsValue_twoDigits, Nat.mod_mod]
  rotate_left
  · cases v with
    | nan => cases hfin
    | inf s => cases hfin
    | fin s m e => exact (hundredths_spec s m e).1
  · cases v with
    | nan => cases hfin
    | inf s => cases hfin
    | fin s m e => exact (hundredths_spec s m e).2
  cases v with
  | nan => cases hfin
  | inf s => cases hfin
  | fin s m e =>
    cases s with
    | false =>
      have hs := Sprintf2f_fin false m e
      simp only [Bool.false_eq_true, if_false, List.nil_append] at hs
      rw [FormatearMonto_of_rendering _ _ _ hs
        (digits_no_period _ (decDigits_isDigit _))
        (digits_no_period _ (twoDigits_isDigit _)), formatLoop_eq_groups]
      simp [groupedRendering, F64.signBit]
    | true =>
      have hm : m = 0 := by
        simp only [F64.isNeg, Bool.true_and, decide_eq_false_iff_not] at hnn
        omega
      subst hm
      have hs := Sprintf2f_fin true 0 e
      rw [hundredths_zero] at hs
      rw [FormatearMonto_of_rendering _ _ _ hs (by decide) (by decide)]
      simp only [groupedRendering, hundredths_zero, F64.signBit]
      decide

/-- The examples of C6: `1234567.5`, `0` and `999.999`. -/
theorem FormatearMonto_grouped_witness :
    FormatearMonto (F64.ofRatio false 12345675 10) = "1,234,567.50".data ∧
      FormatearMonto F64.zero = "0.00".data ∧
      FormatearMonto (F64.ofRatio false 999999 1000) = "1,000.00".data := by
  refine ⟨?_, ?_, ?_⟩
  · rw [(FormatearMonto_grouped (F64.ofRatio false 12345675 10) (by decide) (by decide)).1]
    decide
  · rw [(FormatearMonto_grouped F64.zero (by decide) (by decide)).1]
    decide
  · rw [(FormatearMonto_grouped (F64.ofRatio false 999999 1000) (by decide) (by decide)).1]
    decide

theorem formatLoop_shift (L : Nat) (cs : GoStr) (j : Nat) (hj : 0 < j) :
    formatLoop (L + 1) (j + 1) cs = formatLoop L j cs := by
  induction cs generalizing j with
  | nil => rfl
  | cons c t ih =>
    simp only [formatLoop]
    rw [ih (j + 1) (by omega)]
    have h1 : L + 1 - (j + 1) = L - j := by omega
    have h2 : 0 < j + 1 := by omega
    simp only [h1, h2, hj, true_and]

/-- What `FormatearMonto` does with a set sign bit: the sign is counted as the
first character of the integer part, so a comma follows it exactly when the number
of integer digits is a multiple of three. -/
theorem FormatearMonto_sign (m : Nat) (e : Int) :
    FormatearMonto (F64.fin true m e) =
      '-' :: ((if (decDigits (hundredths (F64.fin false m e) / 100)).length % 3 = 0
          then [','] else []) ++ FormatearMonto (F64.fin false m e)) := by
  have hneg := Sprintf2f_fin true m e
  have hpos := Sprintf2f_fin false m e
  have hh : hundredths (F64.fin true m e) = hundredths (F64.fin false m e) := rfl
  rw [hh] at hneg
  simp only [if_true, Bool.false_eq_true, if_false, List.nil_append] at hneg hpos
  have hd := digits_no_period _ (decDigits_isDigit (hundredths (F64.fin false m e) / 100))
  have hf := digits_no_period _ (twoDigits_isDigit (hundredths (F64.fin false m e) % 100))
  rw [FormatearMonto_of_rendering _ _ _ hpos hd hf,
    FormatearMonto_of_rendering _ _ _ hneg (by
      intro c hc
      rw [List.mem_append, List.mem_singleton] at hc
      rcases hc with hc | hc
      · subst hc; decide
      · exact hd c hc) hf]
  have hne := decDigits_ne_nil (hundredths (F64.fin false m e) / 100)
  generalize decDigits (hundredths (F64.fin false m e) / 100) = ds at *
  cases ds with
  | nil => exact absurd rfl hne
  | cons c t =>
    simp only [List.singleton_append, List.length_cons, formatLoop, Nat.lt_irrefl, false_and,
      if_false, List.nil_append, List.cons_append, List.cons.injEq, true_and]
    rw [formatLoop_shift (t.length + 1) t 1 (by omega)]
    have h1 : t.length + 1 + 1 - (0 + 1) = t.length + 1 := by omega
    simp [h1]

/-- C7 fails on the code: the amount `-123`, as the form submits it, is shown as
`-,123.00`, with a comma right after the sign, while `123` is shown as `123.00`. -/
theorem FormatearMonto_minus_123 :
    ParseFloat (ReplaceAll "-123".data ',' []) = .ok (F64.ofScaled true 123 0) ∧
      FormatearMonto (F64.ofScaled true 123 0) = "-,123.00".data ∧
      FormatearMonto (F64.abs (F64.ofScaled true 123 0)) = "123.00".data ∧
      (pageData (F64.ofScaled false 73 (-1)) [] ⟨"POST".data, "-123".data,
        "usd_to_bs".data⟩).FormattedInput = "-,123.00".data ∧
      (pageData (F64.ofScaled false 73 (-1)) [] ⟨"POST".data, "-123".data,
        "usd_to_bs".data⟩).FormattedConverted = "-4,489.50".data := by
  decide

/-! ## The rate-parsing step -/

theorem parseRate_eq (text : GoStr) :
    parseRate text =
      if TrimSpace text = [] then .error .notFound
      else
        match ParseFloat (ReplaceAll (TrimSpace text) ',' ['.']) with
        | .error err => .error (.convert (ReplaceAll (TrimSpace text) ',' ['.']) err)
        | .ok rate => .ok rate := rfl

theorem commaDecimal_value (ds fs : GoStr) :
    ((digitsValue (ds ++ fs) : ℕ) : ℚ) / ((10 ^ fs.length : ℕ) : ℚ) =
      (digitsValue ds : ℚ) + (digitsValue fs : ℚ) / (10 : ℚ) ^ fs.length := by
  rw [digitsValue_append]
  push_cast
  field_simp

/-- C9, as stated, fails: the text `2` followed by 308 zeros and `,0` is in
comma-decimal notation, yet the parsing step fails with a range error; and the
text `0,1` parses to `7205759403792794 * 2^-56`, which is not one tenth. -/
theorem parseRate_out_of_range :
    parseRate (('2' :: List.replicate 308 '0') ++ ",0".data) =
        .error (.convert (('2' :: List.replicate 308 '0') ++ ".0".data) .errRange) ∧
      parseRate "0,1".data = .ok (F64.fin false 7205759403792794 (-56)) ∧
      magVal 7205759403792794 (-56) ≠ 1 / 10 := by
  refine ⟨by decide, by decide, ?_⟩
  unfold magVal
  rw [zpow_neg, show (2 : ℚ) ^ (56 : ℤ) = 2 ^ 56 by norm_cast]
  norm_num

/-- C9 (amended): for every rate text in comma-decimal notation (digits, one
comma, digits, optional surrounding white space), the parsing step of
`GetDollarRate` (trim, every comma replaced by a period, `ParseFloat`) succeeds
whenever the number written is below the overflow threshold of binary64, and then
returns the binary64 value nearest to the number whose integer part is the digits
before the comma and whose fraction is the digits after it; from the threshold on
it fails with the numeric-format error.  When the trimmed text is empty the step
fails as not found, and when the normalised text is not a number it fails with the
numeric-format error. -/
theorem parseRate_comma_decimal (ws₁ ds fs ws₂ : GoStr)
    (hws₁ : ∀ c ∈ ws₁, isSpace c = true) (hws₂ : ∀ c ∈ ws₂, isSpace c = true)
    (hds : ds ≠ []) (hfs : fs ≠ [])
    (hd : ∀ c ∈ ds, isDigit c = true) (hf : ∀ c ∈ fs, isDigit c = true) :
    ((digitsValue ds : ℚ) + (digitsValue fs : ℚ) / (10 : ℚ) ^ fs.length < overflowThreshold →
        ∃ m e, parseRate (ws₁ ++ (ds ++ ',' :: fs) ++ ws₂) = .ok (F64.fin false m e) ∧
          (F64.fin false m e).IsBinary64 ∧
          ∀ (M : Nat) (E : Int), M < 2 ^ 53 → -1074 ≤ E →
            |magVal m e - ((digitsValue ds : ℚ) + (digitsValue fs : ℚ) / (10 : ℚ) ^ fs.length)| ≤
              |magVal M E -
                ((digitsValue ds : ℚ) + (digitsValue fs : ℚ) / (10 : ℚ) ^ fs.length)|) ∧
      (overflowThreshold ≤ (digitsValue ds : ℚ) + (digitsValue fs : ℚ) / (10 : ℚ) ^ fs.length →
        parseRate (ws₁ ++ (ds ++ ',' :: fs) ++ ws₂) =
          .error (.convert (ds ++ '.' :: fs) .errRange)) ∧
      (∀ text, TrimSpace text = [] → parseRate text = .error .notFound) ∧
      (∀ text err, TrimSpace text ≠ [] →
        ParseFloat (ReplaceAll (TrimSpace text) ',' ['.']) = .error err →
          parseRate text = .error (.convert (ReplaceAll (TrimSpace text) ',' ['.']) err)) := by
  obtain ⟨htrim, hrep⟩ := normalise_comma_decimal ws₁ ds fs ws₂ hws₁ hws₂ hds hfs hd hf
  have hne : ds ++ ',' :: fs ≠ [] := by simp
  have hparse := ParseFloat_plain false ds fs hds hfs hd hf
  simp only [Bool.false_eq_true, if_false, List.nil_append] at hparse
  have hq : 0 < 10 ^ fs.length := by positivity
  have hval := commaDecimal_value ds fs
  refine ⟨?_, ?_, ?_, ?_⟩
  · intro hx
    rw [← hval] at hx
    have hsome := roundMag_ne_none _ _ hq hx
    cases hr : F64.roundMag (digitsValue (ds ++ fs)) (10 ^ fs.length) with
    | none => exact absurd hr hsome
    | some me =>
      obtain ⟨m, e⟩ := me
      refine ⟨m, e, ?_, roundMag_isBinary64 false _ _ m e hq hr, ?_⟩
      · rw [parseRate_eq, htrim, if_neg hne, hrep, hparse, hr]
      · intro M E hM hE
        have hnear := roundCore_nearest (digitsValue (ds ++ fs)) (10 ^ fs.length) hq M E hM hE
        rw [(roundMag_some _ _ m e hr).1, hval] at hnear
        exact hnear
  · intro hx
    rw [← hval] at hx
    have hnone := (roundMag_none_iff _ _ hq).2 hx
    rw [parseRate_eq, htrim, if_neg hne, hrep, hparse, hnone]
  · intro text ht
    rw [parseRate_eq, if_pos ht]
  · intro text err ht herr
    rw [parseRate_eq, if_neg ht, herr]

/-- The example of C9: ` 36,50 ` parses to the value 36.5. -/
theorem parseRate_comma_decimal_witness :
    (36 : ℚ) + 50 / 10 ^ 2 < overflowThreshold ∧
      (∃ m e, parseRate " 36,50 ".data = .ok (F64.fin false m e) ∧
        (F64.fin false m e).IsBinary64 ∧
        ∀ (M : Nat) (E : Int), M < 2 ^ 53 → -1074 ≤ E →
          |magVal m e - ((36 : ℚ) + 50 / 10 ^ 2)| ≤ |magVal M E - ((36 : ℚ) + 50 / 10 ^ 2)|) ∧
      parseRate " 36,50 ".data = .ok (F64.fin false 5136918324969472 (-47)) ∧
      magVal 5136918324969472 (-47) = 36 + 50 / 10 ^ 2 := by
  obtain ⟨h, -, -, -⟩ := parseRate_comma_decimal " ".data "36".data "50".data " ".data
    (by decide) (by decide) (by decide) (by decide) (by decide) (by decide)
  have h1 : digitsValue "36".data = 36 := by decide
  have h2 : digitsValue "50".data = 50 := by decide
  have h3 : "50".data.length = 2 := by decide
  have h4 : " ".data ++ ("36".data ++ ',' :: "50".data) ++ " ".data = " 36,50 ".data := by
    decide
  rw [h1, h2, h3, h4] at h
  push_cast at h
  have hlt : (36 : ℚ) + 50 / 10 ^ 2 < overflowThreshold := by
    unfold overflowThreshold
    have h54 : (2 : ℚ) ^ 1024 = 2 ^ 54 * 2 ^ 970 := by rw [← pow_add]
    have h970 : (1 : ℚ) ≤ 2 ^ 970 := one_le_pow₀ (by norm_num)
    rw [h54]
    nlinarith
  refine ⟨hlt, h hlt, by decide, ?_⟩
  unfold magVal
  rw [zpow_neg, show (2 : ℚ) ^ (47 : ℤ) = 2 ^ 47 by norm_cast]
  norm_num

/-! ## Formatting, stripping the commas and parsing again -/

theorem ReplaceAll_formatLoop (N : Nat) (cs : GoStr) (i : Nat) (h : ∀ c ∈ cs, c ≠ ',') :
    ReplaceAll (formatLoop N i cs) ',' [] = cs := by
  induction cs generalizing i with
  | nil => rfl
  | cons c t ih =>
    have hc : c ≠ ',' := h c (List.mem_cons_self _ _)
    have ht := ih (i + 1) (fun x hx => h x (List.mem_cons_of_mem _ hx))
    simp only [formatLoop]
    split_ifs
    · simp only [List.singleton_append, ReplaceAll, if_true, List.nil_append, if_neg hc, ht]
    · simp only [List.nil_append, ReplaceAll, if_neg hc, ht, List.singleton_append]

theorem FormatearMonto_congr (v w : F64) (h : Sprintf2f w = Sprintf2f v) :
    FormatearMonto w = FormatearMonto v := by
  simp only [FormatearMonto, h]

theorem hundredths_lt_threshold (s : Bool) (m : Nat) (e : Int) (hm : m < 2 ^ 53)
    (he : e ≤ 971) :
    ((hundredths (F64.fin s m e) : ℕ) : ℚ) / ((100 : ℕ) : ℚ) < overflowThreshold := by
  obtain ⟨hn, -⟩ := hundredths_spec s m e
  have hv := magVal_le_of_finite m e hm he
  have hup := (abs_le.1 hn).2
  have h971 := pow_971_eq
  have h970 : (1 : ℚ) ≤ 2 ^ 970 := one_le_pow₀ (by norm_num)
  unfold overflowThreshold
  rw [div_lt_iff₀ (by norm_num)]
  push_cast
  linarith

/-- C10: for every finite value `v`, removing all commas from `FormatearMonto(v)`
gives back exactly the plain two-decimal rendering of `v`; that text parses, with
no error, to the binary64 value nearest to `v` rounded to two decimals; and
formatting the parsed value again returns the same string. -/
theorem FormatearMonto_reparse (v : F64) (hfin : v.isFinite = true) (hb : v.IsBinary64) :
    ReplaceAll (FormatearMonto v) ',' [] = Sprintf2f v ∧
      ∃ (m' : Nat) (e' : Int),
        ParseFloat (ReplaceAll (FormatearMonto v) ',' []) = .ok (F64.fin v.signBit m' e') ∧
        (F64.fin v.signBit m' e').IsBinary64 ∧
        (∀ (M : Nat) (E : Int), M < 2 ^ 53 → -1074 ≤ E →
          |magVal m' e' - (hundredths v : ℚ) / 100| ≤ |magVal M E - (hundredths v : ℚ) / 100|) ∧
        hundredths (F64.fin v.signBit m' e') = hundredths v ∧
        FormatearMonto (F64.fin v.signBit m' e') = FormatearMonto v := by
  cases v with
  | nan => cases hfin
  | inf s => cases hfin
  | fin s m e =>
    obtain ⟨hm, he1, he2, -⟩ := hb
    have hs := Sprintf2f_fin s m e
    set n := hundredths (F64.fin s m e) with hn
    have hd := decDigits_isDigit (n / 100)
    have hf := twoDigits_isDigit (n % 100)
    have hsign : ∀ c ∈ (if s then ['-'] else []), c ≠ '.' ∧ c ≠ ',' := by
      intro c hc
      cases s
      · simp at hc
      · simp only [if_true, List.mem_singleton] at hc
        subst hc
        exact ⟨by decide, by decide⟩
    have hint1 : ∀ c ∈ (if s then ['-'] else []) ++ decDigits (n / 100), c ≠ '.' := by
      intro c hc
      rcases List.mem_append.1 hc with h | h
      · exact (hsign c h).1
      · exact digits_no_period _ hd c h
    have hint2 : ∀ c ∈ (if s then ['-'] else []) ++ decDigits (n / 100), c ≠ ',' := by
      intro c hc
      rcases List.mem_append.1 hc with h | h
      · exact (hsign c h).2
      · exact digits_no_comma _ hd c h
    have hfmt := FormatearMonto_of_rendering _ _ _ hs hint1 (digits_no_period _ hf)
    have hstrip : ReplaceAll (FormatearMonto (F64.fin s m e)) ',' [] =
        Sprintf2f (F64.fin s m e) := by
      rw [hfmt, hs, ReplaceAll_append, ReplaceAll_formatLoop _ _ _ hint2]
      congr 1
      rw [ReplaceAll, if_neg (by decide : ¬ ('.' : Char) = ','),
        ReplaceAll_absent _ ',' _ (digits_no_comma _ hf)]
      rfl
    -- the parse
    have hparse := ParseFloat_plain s (decDigits (n / 100)) (twoDigits (n % 100))
      (decDigits_ne_nil _) (by simp [twoDigits]) hd hf
    have hval : digitsValue (decDigits (n / 100) ++ twoDigits (n % 100)) = n := by
      rw [digitsValue_append, digitsValue_decDigits, digitsValue_twoDigits]
      have : (twoDigits (n % 100)).length = 2 := rfl
      rw [this]
      omega
    have hlen : (twoDigits (n % 100)).length = 2 := rfl
    rw [hval, hlen] at hparse
    have hsome := roundMag_ne_none n 100 (by norm_num) (by
      have := hundredths_lt_threshold s m e hm he2
      rw [← hn] at this
      exact_mod_cast this)
    refine ⟨hstrip, ?_⟩
    cases hr : F64.roundMag n (10 ^ 2) with
    | none => exact absurd hr hsome
    | some me =>
      obtain ⟨m', e'⟩ := me
      obtain ⟨hcore, -⟩ := roundMag_some n (10 ^ 2) m' e' hr
      have hstable := hundredths_stable s s m e hm he1
      rw [← hn] at hstable
      have hcore' : F64.roundCore n 100 = (m', e') := hcore
      rw [hcore'] at hstable
      simp only at hstable
      refine ⟨m', e', ?_, roundMag_isBinary64 s n (10 ^ 2) m' e' (by norm_num) hr, ?_, hstable, ?_⟩
      · rw [hstrip, hs, List.append_assoc, hparse, hr]
        rfl
      · intro M E hM hE
        have hnear := roundCore_nearest n 100 (by norm_num) M E hM hE
        rw [hcore'] at hnear
        simp only at hnear
        have hcast : ((n : ℕ) : ℚ) / ((100 : ℕ) : ℚ) = (n : ℚ) / 100 := by norm_num
        rw [hcast] at hnear
        exact hnear
      · apply FormatearMonto_congr
        show Sprintf2f (F64.fin s m' e') = Sprintf2f (F64.fin s m e)
        rw [Sprintf2f_fin, Sprintf2f_fin, hstable]

/-- An example of C10: one third is shown as `0.33`, which parses to the binary64
value nearest to 0.33 and is shown as `0.33` again; `-1234567.5` is shown as
`-1,234,567.50` and parses back to itself. -/
theorem FormatearMonto_reparse_witness :
    (F64.ofRatio false 1 3).isFinite = true ∧ (F64.ofRatio false 1 3).IsBinary64 ∧
      ReplaceAll (FormatearMonto (F64.ofRatio false 1 3)) ',' [] =
        Sprintf2f (F64.ofRatio false 1 3) ∧
      (∃ (m' : Nat) (e' : Int),
        ParseFloat (ReplaceAll (FormatearMonto (F64.ofRatio false 1 3)) ',' []) =
          .ok (F64.fin (F64.ofRatio false 1 3).signBit m' e') ∧
        (F64.fin (F64.ofRatio false 1 3).signBit m' e').IsBinary64 ∧
        (∀ (M : Nat) (E : Int), M < 2 ^ 53 → -1074 ≤ E →
          |magVal m' e' - (hundredths (F64.ofRatio false 1 3) : ℚ) / 100| ≤
            |magVal M E - (hundredths (F64.ofRatio false 1 3) : ℚ) / 100|) ∧
        hundredths (F64.fin (F64.ofRatio false 1 3).signBit m' e') =
          hundredths (F64.ofRatio false 1 3) ∧
        FormatearMonto (F64.fin (F64.ofRatio false 1 3).signBit m' e') =
          FormatearMonto (F64.ofRatio false 1 3)) ∧
      FormatearMonto (F64.ofRatio false 1 3) = "0.33".data ∧
      ParseFloat "0.33".data = .ok (F64.ofRatio false 33 100) ∧
      FormatearMonto (F64.ofRatio false 33 100) = "0.33".data ∧
      FormatearMonto (F64.ofRatio true 12345675 10) = "-1,234,567.50".data ∧
      ParseFloat (ReplaceAll "-1,234,567.50".data ',' []) =
        .ok (F64.ofRatio true 12345675 10) :=
  have h := FormatearMonto_reparse (F64.ofRatio false 1 3) (by decide) (by decide)
  ⟨by decide, by decide, h.1, h.2, by decide, by decide, by decide, by decide, by decide⟩

end DolarAlPiso
